import Mathlib

/-!
Verification of the SeeMyStats ingestion/caching/aggregation engine
(`app/utils/health_parser.py` and `app/utils/dashboard_cache.py`).

The Python code is shallowly embedded:
* the filesystem is an association list from paths (component lists) to
  file/directory metadata; `glob.glob(os.path.join(d, "**", name), recursive=True)`
  is modelled as the list of paths strictly under `d` whose last component
  matches, in filesystem-enumeration order;
* the two on-disk pickle caches are association lists from cache paths to
  payloads (pickle round-trips structurally, so a stored payload is the value
  itself; an unreadable / non-dict pickle is the `DiskFile.bad` constructor);
* Python dict operations are insertion-order-preserving association-list
  operations (`insertA`, `eraseA`), matching CPython semantics;
* `os.stat` mtimes are integers, record field values are a sum of strings,
  rationals, float NaN and None, timestamps are (day, seconds-in-day) pairs,
  and the library parsers `pd.to_datetime` / `float(str)` are oracles passed
  as explicit function parameters (they are external, deterministic code);
* exceptions become `Option`/flags; recursion of `_get_source_stamp` through
  a found export file is given explicit fuel (the Python recursion is finite
  because every recursive call moves strictly deeper in the tree).
-/

namespace SeeMyStats

/-! ## Association-list helpers (Python dict / filesystem maps) -/

/-- Lookup of the first binding of a key (Python dict access / `dict.get`). -/
def lookupA {K V : Type} [DecidableEq K] : List (K × V) → K → Option V
  | [], _ => none
  | (k, v) :: rest, key => if k = key then some v else lookupA rest key

/-- Python dict assignment `d[k] = v`: replace in place if the key is
present, otherwise append at the end (CPython preserves insertion order). -/
def insertA {K V : Type} [DecidableEq K] : List (K × V) → K → V → List (K × V)
  | [], k, v => [(k, v)]
  | (k', v') :: rest, k, v =>
      if k' = k then (k', v) :: rest else (k', v') :: insertA rest k v

/-- Python `dict.pop(k)` / `os.remove`: drop every binding of the key. -/
def eraseA {K V : Type} [DecidableEq K] (l : List (K × V)) (k : K) : List (K × V) :=
  l.filter (fun e => e.1 ≠ k)

@[simp] theorem lookupA_insertA_self {K V : Type} [DecidableEq K]
    (l : List (K × V)) (k : K) (v : V) : lookupA (insertA l k v) k = some v := by
  induction l with
  | nil => simp [insertA, lookupA]
  | cons e rest ih =>
      by_cases h : e.1 = k <;> simp [insertA, lookupA, h, ih]

theorem lookupA_insertA_ne {K V : Type} [DecidableEq K]
    (l : List (K × V)) (k k' : K) (v : V) (h : k ≠ k') :
    lookupA (insertA l k v) k' = lookupA l k' := by
  induction l with
  | nil => simp [insertA, lookupA, h]
  | cons e rest ih =>
      by_cases he : e.1 = k
      · simp [insertA, lookupA, he, h]
      · simp only [insertA, lookupA, if_neg he]
        by_cases he' : e.1 = k' <;> simp [he', ih]

@[simp] theorem lookupA_eraseA_self {K V : Type} [DecidableEq K]
    (l : List (K × V)) (k : K) : lookupA (eraseA l k) k = none := by
  induction l with
  | nil => simp [eraseA, lookupA]
  | cons e rest ih =>
      by_cases h : e.1 = k <;> simp [eraseA, lookupA, h, ih] <;>
        simpa [eraseA] using ih

theorem lookupA_eraseA_ne {K V : Type} [DecidableEq K]
    (l : List (K × V)) (k k' : K) (h : k ≠ k') :
    lookupA (eraseA l k) k' = lookupA l k' := by
  induction l with
  | nil => rfl
  | cons e rest ih =>
      by_cases he : e.1 = k
      · have hne : ¬e.1 = k' := by rw [he]; exact h
        have hskip : eraseA (e :: rest) k = eraseA rest k := by simp [eraseA, he]
        rw [hskip, ih, lookupA, if_neg hne]
      · have hkeep : eraseA (e :: rest) k = e :: eraseA rest k := by simp [eraseA, he]
        rw [hkeep, lookupA, lookupA]
        by_cases he' : e.1 = k' <;> simp [he', ih]

/-! ## Filesystem model and source stamps -/

/-- A filesystem path, as its list of components (`os.path` separators). -/
abbrev FPath := List String

/-- Metadata of a filesystem entry, as read by `os.stat` / `os.path.isdir`. -/
inductive FSEntry : Type
  | file (mtime : ℤ) (size : ℕ)
  | dir (mtime : ℤ)
deriving DecidableEq

/-- The filesystem: an enumeration of paths with their metadata.  List order
is the (deterministic) order in which `glob` enumerates matching paths. -/
abbrev FS := List (FPath × FSEntry)

/-- `os.path.basename`, on component lists. -/
def lastName (p : FPath) : String := (p.getLast?).getD ""

/-- Is `q` strictly inside the tree rooted at `d`?  (`d/**/...`). -/
def isUnder (d q : FPath) : Bool := d.isPrefixOf q && decide (d.length < q.length)

/-- `glob.glob(os.path.join(d, "**", name), recursive=True)`: every path
strictly under `d` whose basename is exactly `name`, in filesystem order. -/
def globName (fs : FS) (d : FPath) (name : String) : List FPath :=
  (fs.filter (fun e => isUnder d e.1 && decide (lastName e.1 = name))).map (·.1)

/-- A source stamp, `health_parser._get_source_stamp` /
`dashboard_cache._get_source_stamp` result: the Python dicts
`{"type": "dir"|"file", "path": …, "mtime": …, ("size": …)}`. -/
inductive SStamp : Type
  | dirS (path : FPath) (mtime : ℤ)
  | fileS (path : FPath) (mtime : ℤ) (size : ℕ)
deriving DecidableEq

/-- `HealthDataParser._get_source_stamp` (health_parser.py, lines 52-74).
For a directory it searches recursively for `export.xml`, extends with the
matches for `輸出.xml`, and recurses into the first match; `os.stat` failure
(missing path) yields `none`.  `fuel` bounds the recursion through found
export files (the Python recursion is finite: each call descends strictly). -/
def hpSourceStamp : ℕ → FS → FPath → Option SStamp
  | 0, _, _ => none
  | fuel + 1, fs, p =>
      match lookupA fs p with
      | some (.dir m) =>
          let xmls := globName fs p "export.xml" ++ globName fs p "輸出.xml"
          match xmls with
          | f :: _ => hpSourceStamp fuel fs f
          | [] => some (.dirS p m)
      | some (.file m sz) => some (.fileS p m sz)
      | none => none

/-- `dashboard_cache._get_source_stamp` (dashboard_cache.py, lines 15-39):
identical except that the directory search only looks for `export.xml`. -/
def dcSourceStamp : ℕ → FS → FPath → Option SStamp
  | 0, _, _ => none
  | fuel + 1, fs, p =>
      match lookupA fs p with
      | some (.dir m) =>
          match globName fs p "export.xml" with
          | f :: _ => dcSourceStamp fuel fs f
          | [] => some (.dirS p m)
      | some (.file m sz) => some (.fileS p m sz)
      | none => none

theorem isUnder_trans {a b c : FPath} (h1 : isUnder a b = true)
    (h2 : isUnder b c = true) : isUnder a c = true := by
  simp only [isUnder, Bool.and_eq_true, List.isPrefixOf_iff_prefix,
    decide_eq_true_eq] at *
  exact ⟨h1.1.trans h2.1, Nat.lt_trans h1.2 h2.2⟩

theorem mem_globName {fs : FS} {d : FPath} {name : String} {q : FPath} :
    q ∈ globName fs d name ↔
      (∃ e ∈ fs, e.1 = q) ∧ isUnder d q = true ∧ lastName q = name := by
  simp only [globName, List.mem_map, List.mem_filter, Bool.and_eq_true,
    decide_eq_true_eq]
  constructor
  · rintro ⟨e, ⟨hm, hu, hn⟩, rfl⟩
    exact ⟨⟨e, hm, rfl⟩, hu, hn⟩
  · rintro ⟨⟨e, hm, he⟩, hu, hn⟩
    exact ⟨e, ⟨hm, by rw [he]; exact hu, by rw [he]; exact hn⟩, he⟩

/-- If the tree under `p` has no file named `name`, neither does the tree
under any `f` that lies under `p`. -/
theorem globName_nil_under {fs : FS} {p f : FPath} {name : String}
    (hnil : globName fs p name = []) (hf : isUnder p f = true) :
    globName fs f name = [] := by
  rcases h : globName fs f name with _ | ⟨q, rest⟩
  · rfl
  · exfalso
    have hq : q ∈ globName fs f name := by rw [h]; exact List.mem_cons_self q rest
    rw [mem_globName] at hq
    have : q ∈ globName fs p name :=
      mem_globName.2 ⟨hq.1, isUnder_trans hf hq.2.1, hq.2.2⟩
    rw [hnil] at this
    exact List.not_mem_nil q this

/-! ## Records and the Record Store -/

/-- A record field value.  XML attributes are strings; JSON/CSV rows can also
carry numbers, float NaN (pandas' missing-cell marker) and None.  Python
truthiness of each shape is `truthyV` below. -/
inductive Value : Type
  | str (s : String)
  | num (q : ℚ)
  | nan
  | null
deriving DecidableEq

/-- Python truthiness (`if record_type:` etc.): empty string, zero and None
are falsy; float NaN is truthy. -/
def truthyV : Value → Bool
  | .str s => s ≠ ""
  | .num q => q ≠ 0
  | .nan => true
  | .null => false

/-- A health record: a flat field-name → value mapping (`elem.attrib`,
a JSON object, a CSV row). -/
abbrev HRecord := List (String × Value)

/-- `record.get(field)` / `field in record`. -/
def lookupR (r : HRecord) (k : String) : Option Value := lookupA r k

/-- The in-memory Record Store: `self.records` plus `self.record_types`
(a dict keyed by the record's `type` value, each bucket in append order). -/
structure ParserState : Type where
  records : List HRecord
  record_types : List (Value × List HRecord)
deriving DecidableEq

def emptyParser : ParserState := ⟨[], []⟩

/-- `self.record_types[t].append(r)` with `setdefault`-style creation:
append into the first bucket with this key, else create a new bucket at the
end (Python dict insertion order). -/
def addToBucket : List (Value × List HRecord) → Value → HRecord → List (Value × List HRecord)
  | [], t, r => [(t, [r])]
  | (k, rs) :: rest, t, r =>
      if k = t then (k, rs ++ [r]) :: rest else (k, rs) :: addToBucket rest t r

/-- One iteration of every ingestion loop: `self.records.append(record)`,
then `record_type = record.get('type'); if record_type:` index it. -/
def addRecord (pr : ParserState) (r : HRecord) : ParserState :=
  let recs := pr.records ++ [r]
  match lookupR r "type" with
  | some t => if truthyV t then ⟨recs, addToBucket pr.record_types t r⟩
              else ⟨recs, pr.record_types⟩
  | none => ⟨recs, pr.record_types⟩

/-! ## The two-tier cache (`_load_cache` / `_save_cache`, health_parser.py) -/

/-- `CACHE_VERSION` (health_parser.py line 15). -/
def CACHE_VERSION : ℕ := 1

/-- `MEMORY_CACHE_LIMIT` (health_parser.py line 16). -/
def MEMORY_CACHE_LIMIT : ℕ := 1

/-- `CACHE_FILENAME` (health_parser.py line 14). -/
def CACHE_FILENAME : String := "health_cache.pkl"

/-- A cache payload as written by `_save_cache`
(`{"cache_version", "source_stamp", "records", "record_types"}`). -/
structure Payload : Type where
  cache_version : ℕ
  source_stamp : SStamp
  records : List HRecord
  record_types : List (Value × List HRecord)
deriving DecidableEq

/-- Contents of a cache file on disk: a well-formed pickled payload, or
anything that makes `pickle.load` raise / fail the `isinstance(dict)` check. -/
inductive DiskFile : Type
  | ok (p : Payload)
  | bad
deriving DecidableEq

/-- Process-wide cache state: the on-disk cache files plus the module-level
`MEMORY_CACHE` dict and `MEMORY_CACHE_ORDER` list. -/
structure CacheState : Type where
  disk : List (FPath × DiskFile)
  mem : List (FPath × Payload)
  memOrder : List FPath
deriving DecidableEq

/-- The `while len(MEMORY_CACHE_ORDER) > MEMORY_CACHE_LIMIT:` eviction loop
of `_store_memory_cache`: pop the oldest path and drop its entry unless it is
the one just stored. -/
def evictLoop (keep : FPath) :
    List FPath → List (FPath × Payload) → List FPath × List (FPath × Payload)
  | [], mem => ([], mem)
  | old :: rest, mem =>
      if (old :: rest).length > MEMORY_CACHE_LIMIT then
        evictLoop keep rest (if old = keep then mem else eraseA mem old)
      else (old :: rest, mem)

/-- `_store_memory_cache` (health_parser.py, lines 20-28). -/
def storeMemoryCache (st : CacheState) (cachePath : FPath) (payload : Payload) :
    CacheState :=
  let mem1 := insertA st.mem cachePath payload
  let order1 := st.memOrder.erase cachePath ++ [cachePath]
  let res := evictLoop cachePath order1 mem1
  ⟨st.disk, res.2, res.1⟩

/-- `_cache_path_for_source` (health_parser.py, lines 47-50):
`os.path.join(source, CACHE_FILENAME)` for a directory, else
`os.path.join(os.path.dirname(source), CACHE_FILENAME)`. -/
def cachePathForSource (fs : FS) (p : FPath) : FPath :=
  match lookupA fs p with
  | some (.dir _) => p ++ [CACHE_FILENAME]
  | _ => p.dropLast ++ [CACHE_FILENAME]

/-- The on-disk half of `_load_cache` (health_parser.py, lines 96-116):
unpickle, validate shape, version and stamp, assign the parser fields,
promote into the memory tier, and return `len(self.records) > 0`. -/
def loadDisk (st : CacheState) (pr : ParserState) (cachePath : FPath)
    (stamp : SStamp) : DiskFile → ParserState × CacheState × Bool
  | .bad => (pr, st, false)
  | .ok payload =>
      if payload.cache_version = CACHE_VERSION then
        if payload.source_stamp = stamp then
          (⟨payload.records, payload.record_types⟩,
           storeMemoryCache st cachePath payload,
           decide (payload.records.length > 0))
        else (pr, st, false)
      else (pr, st, false)

/-- `_load_cache` (health_parser.py, lines 76-116).  Returns the updated
parser fields, the updated process cache state, and the boolean result.
Mirrors the code: existence check, stamp computation, memory tier (version
and stamp compared before use), then the on-disk tier (`loadDisk`); on every
hit the method assigns `self.records` / `self.record_types` and returns
`len(self.records) > 0`. -/
def loadCache (fuel : ℕ) (fs : FS) (st : CacheState) (pr : ParserState)
    (cachePath sourcePath : FPath) : ParserState × CacheState × Bool :=
  match lookupA st.disk cachePath with
  | none => (pr, st, false)
  | some content =>
      match hpSourceStamp fuel fs sourcePath with
      | none => (pr, st, false)
      | some stamp =>
          match lookupA st.mem cachePath with
          | some mp =>
              if mp.cache_version = CACHE_VERSION ∧ mp.source_stamp = stamp then
                (⟨mp.records, mp.record_types⟩, st, decide (mp.records.length > 0))
              else loadDisk st pr cachePath stamp content
          | none => loadDisk st pr cachePath stamp content

/-- `f"{cache_path}.tmp"`: the temporary-file path used by `_save_cache`. -/
def tmpOf (p : FPath) : FPath := p.dropLast ++ [(p.getLast?).getD "" ++ ".tmp"]

/-- Which step of `_save_cache` / `save_dashboard_cache` raises, if any.
`ok` = no I/O error; `writeFail` = `open`/`pickle.dump` raises (the partial
temporary file is removed by the handler); `replaceFail` = `os.replace`
raises (the written temporary file is removed by the handler). -/
inductive SaveErr : Type
  | ok
  | writeFail
  | replaceFail
deriving DecidableEq

/-- `_save_cache` (health_parser.py, lines 118-143): compute the stamp (no
write on failure), dump the payload to `cache_path + ".tmp"`, atomically
`os.replace` it over the cache file, store the memory tier; on an I/O error
remove the temporary file and report failure (the method never raises — the
Bool result models the success/failure log line, cf. `save_dashboard_cache`
which returns exactly this Bool). -/
def saveCacheRun (fuel : ℕ) (fs : FS) (st : CacheState) (pr : ParserState)
    (cachePath sourcePath : FPath) (err : SaveErr) : CacheState × Bool :=
  match hpSourceStamp fuel fs sourcePath with
  | none => (st, false)
  | some s =>
      let payload : Payload := ⟨CACHE_VERSION, s, pr.records, pr.record_types⟩
      let tmp := tmpOf cachePath
      match err with
      | .ok =>
          let disk1 := insertA st.disk tmp (.ok payload)
          let disk2 := insertA (eraseA disk1 tmp) cachePath (.ok payload)
          (storeMemoryCache ⟨disk2, st.mem, st.memOrder⟩ cachePath payload, true)
      | .writeFail =>
          (⟨eraseA st.disk tmp, st.mem, st.memOrder⟩, false)
      | .replaceFail =>
          (⟨eraseA (insertA st.disk tmp (.ok payload)) tmp, st.mem, st.memOrder⟩, false)

/-! ## Cache lemmas -/

theorem tmpOf_ne (p : FPath) : tmpOf p ≠ p := by
  intro h
  have h2 := congrArg List.getLast? h
  rw [tmpOf, List.getLast?_concat] at h2
  rcases hp : p.getLast? with _ | y
  · rw [hp] at h2; exact Option.noConfusion h2
  · rw [hp] at h2
    have h3 : (Option.some y).getD "" ++ ".tmp" = y := Option.some.inj h2
    simp only [Option.getD_some] at h3
    have h4 := congrArg String.length h3
    rw [String.length_append] at h4
    have h5 : (".tmp").length = 4 := rfl
    omega

theorem lookupA_evictLoop (keep : FPath) (order : List FPath)
    (mem : List (FPath × Payload)) :
    lookupA (evictLoop keep order mem).2 keep = lookupA mem keep := by
  induction order generalizing mem with
  | nil => rfl
  | cons old rest ih =>
      by_cases hlen : (old :: rest).length > MEMORY_CACHE_LIMIT
      · rw [evictLoop, if_pos hlen]
        by_cases ho : old = keep
        · rw [if_pos ho]; exact ih mem
        · rw [if_neg ho, ih, lookupA_eraseA_ne _ _ _ ho]
      · rw [evictLoop, if_neg hlen]

theorem storeMemoryCache_disk (st : CacheState) (cp : FPath) (pl : Payload) :
    (storeMemoryCache st cp pl).disk = st.disk := rfl

theorem lookupA_storeMemoryCache_self (st : CacheState) (cp : FPath)
    (pl : Payload) : lookupA (storeMemoryCache st cp pl).mem cp = some pl := by
  unfold storeMemoryCache
  exact (lookupA_evictLoop cp _ _).trans (lookupA_insertA_self _ _ _)

/-! ## C3: equivalence of the two Source Stamp computations -/

/-- Filesystem refuting C3: a directory `d` whose only canonical export is
the multi-locale name `輸出.xml`. -/
def fsC3 : FS := [(["d"], .dir 5), (["d", "輸出.xml"], .file 7 42)]

/-- C3 (counterexample): the record-store stamp (`health_parser`) and the
dashboard stamp (`dashboard_cache`) are NOT equivalent.  On a directory
whose canonical export is named `輸出.xml`, the record-store stamp descends
into the file while the dashboard stamp — which searches only for
`export.xml` — stamps the directory itself. -/
theorem c3_stamp_equiv_counterexample :
    hpSourceStamp 2 fsC3 ["d"] = some (.fileS ["d", "輸出.xml"] 7 42) ∧
    dcSourceStamp 2 fsC3 ["d"] = some (.dirS ["d"] 5) ∧
    hpSourceStamp 2 fsC3 ["d"] ≠ dcSourceStamp 2 fsC3 ["d"] := by
  refine ⟨by decide, by decide, by decide⟩

/-- C3 (amended): the two stamp computations agree on every file source and
on every directory source whose tree contains no `輸出.xml`; they only
recognize a common canonical filename (`export.xml`) and delegate to the
first match, so on a directory whose only canonical export is `輸出.xml`
they diverge (`c3_stamp_equiv_counterexample`). -/
theorem c3_stamp_equiv_amended (fuel : ℕ) (fs : FS) (p : FPath)
    (h : (∃ m sz, lookupA fs p = some (.file m sz)) ∨
         globName fs p "輸出.xml" = []) :
    hpSourceStamp fuel fs p = dcSourceStamp fuel fs p := by
  induction fuel generalizing p with
  | zero => rfl
  | succ n ih =>
      rcases hl : lookupA fs p with _ | entry
      · simp [hpSourceStamp, dcSourceStamp, hl]
      · cases entry with
        | file m sz => simp [hpSourceStamp, dcSourceStamp, hl]
        | dir m =>
            have hout : globName fs p "輸出.xml" = [] := by
              rcases h with ⟨m', sz', hf⟩ | hout
              · rw [hl] at hf; exact absurd hf (by simp)
              · exact hout
            rcases hexp : globName fs p "export.xml" with _ | ⟨f, rest⟩
            · simp [hpSourceStamp, dcSourceStamp, hl, hexp, hout]
            · have hfmem : f ∈ globName fs p "export.xml" := by
                rw [hexp]; exact List.mem_cons_self f rest
              have hunder : isUnder p f = true := (mem_globName.1 hfmem).2.1
              have hrec : globName fs f "輸出.xml" = [] :=
                globName_nil_under hout hunder
              simp only [hpSourceStamp, dcSourceStamp, hl, hexp, hout,
                List.append_nil]
              exact ih f (Or.inr hrec)

/-- Witness for `c3_stamp_equiv_amended` on a concrete directory holding an
`export.xml` (and no `輸出.xml`). -/
theorem c3_stamp_equiv_amended_witness :
    globName [(["d"], FSEntry.dir 5), (["d", "export.xml"], FSEntry.file 7 42)]
        ["d"] "輸出.xml" = [] ∧
    hpSourceStamp 2 [(["d"], FSEntry.dir 5), (["d", "export.xml"], FSEntry.file 7 42)] ["d"] =
    dcSourceStamp 2 [(["d"], FSEntry.dir 5), (["d", "export.xml"], FSEntry.file 7 42)] ["d"] :=
  ⟨by decide, c3_stamp_equiv_amended 2 _ ["d"] (Or.inr (by decide))⟩

/-! ## C1 / C6 / C10: cache round-trip, save error handling, empty payloads -/

/-- C1: for every source S (with a computable stamp) and every records list
and type index, `_save_cache` for S followed by `_load_cache` for S — with S
unchanged (same filesystem, hence same path/mtime/size stamp) between the two
calls — loads a payload whose `records` and `record_types` are structurally
equal to the saved ones (whatever parser state the load starts from). -/
theorem c1_cache_roundtrip (fuel : ℕ) (fs : FS) (st : CacheState)
    (pr pr0 : ParserState) (cp sp : FPath) (s : SStamp)
    (hs : hpSourceStamp fuel fs sp = some s) :
    (loadCache fuel fs (saveCacheRun fuel fs st pr cp sp .ok).1 pr0 cp sp).1.records
        = pr.records ∧
    (loadCache fuel fs (saveCacheRun fuel fs st pr cp sp .ok).1 pr0 cp sp).1.record_types
        = pr.record_types := by
  have hsave : (saveCacheRun fuel fs st pr cp sp .ok).1 =
      storeMemoryCache
        ⟨insertA (eraseA (insertA st.disk (tmpOf cp)
            (.ok ⟨CACHE_VERSION, s, pr.records, pr.record_types⟩)) (tmpOf cp))
          cp (.ok ⟨CACHE_VERSION, s, pr.records, pr.record_types⟩),
         st.mem, st.memOrder⟩
        cp ⟨CACHE_VERSION, s, pr.records, pr.record_types⟩ := by
    simp [saveCacheRun, hs]
  have hdisk : lookupA (saveCacheRun fuel fs st pr cp sp .ok).1.disk cp =
      some (.ok ⟨CACHE_VERSION, s, pr.records, pr.record_types⟩) := by
    rw [hsave, storeMemoryCache_disk]
    exact lookupA_insertA_self _ _ _
  have hmem : lookupA (saveCacheRun fuel fs st pr cp sp .ok).1.mem cp =
      some ⟨CACHE_VERSION, s, pr.records, pr.record_types⟩ := by
    rw [hsave]
    exact lookupA_storeMemoryCache_self _ _ _
  simp [loadCache, hdisk, hs, hmem, CACHE_VERSION]

/-- Witness for `c1_cache_roundtrip` on a concrete one-file source. -/
theorem c1_cache_roundtrip_witness :
    hpSourceStamp 1 [(["d", "export.xml"], FSEntry.file 3 10)] ["d", "export.xml"]
        = some (.fileS ["d", "export.xml"] 3 10) ∧
    (loadCache 1 [(["d", "export.xml"], FSEntry.file 3 10)]
        (saveCacheRun 1 [(["d", "export.xml"], FSEntry.file 3 10)] ⟨[], [], []⟩
          ⟨[[("type", Value.str "HeartRate")]],
           [(Value.str "HeartRate", [[("type", Value.str "HeartRate")]])]⟩
          ["d", "health_cache.pkl"] ["d", "export.xml"] .ok).1
        ⟨[], []⟩ ["d", "health_cache.pkl"] ["d", "export.xml"]).1.records
      = [[("type", Value.str "HeartRate")]] :=
  ⟨by decide,
   (c1_cache_roundtrip 1 [(["d", "export.xml"], FSEntry.file 3 10)] ⟨[], [], []⟩
      ⟨[[("type", Value.str "HeartRate")]],
       [(Value.str "HeartRate", [[("type", Value.str "HeartRate")]])]⟩
      ⟨[], []⟩ ["d", "health_cache.pkl"] ["d", "export.xml"]
      (.fileS ["d", "export.xml"] 3 10) (by decide)).1⟩

/-- C6: cache save computes the Source Stamp first and, if unavailable,
writes nothing and reports failure; with a stamp it writes the payload via
a temporary file renamed into place (so on success the cache file holds the
complete payload and the temporary file is gone), and on any I/O error it
removes the temporary file, leaves the cache file and the memory tier
untouched, and reports failure without raising (the model function is total:
no exception escapes `_save_cache` / `save_dashboard_cache`). -/
theorem c6_save_error_handling (fuel : ℕ) (fs : FS) (st : CacheState)
    (pr : ParserState) (cp sp : FPath) :
    (hpSourceStamp fuel fs sp = none →
      ∀ err, saveCacheRun fuel fs st pr cp sp err = (st, false)) ∧
    (∀ s, hpSourceStamp fuel fs sp = some s →
      ((saveCacheRun fuel fs st pr cp sp .ok).2 = true ∧
       lookupA (saveCacheRun fuel fs st pr cp sp .ok).1.disk cp =
         some (.ok ⟨CACHE_VERSION, s, pr.records, pr.record_types⟩) ∧
       lookupA (saveCacheRun fuel fs st pr cp sp .ok).1.disk (tmpOf cp) = none) ∧
      (∀ err, err ≠ .ok →
        (saveCacheRun fuel fs st pr cp sp err).2 = false ∧
        lookupA (saveCacheRun fuel fs st pr cp sp err).1.disk cp =
          lookupA st.disk cp ∧
        lookupA (saveCacheRun fuel fs st pr cp sp err).1.disk (tmpOf cp) = none ∧
        (saveCacheRun fuel fs st pr cp sp err).1.mem = st.mem)) := by
  constructor
  · intro hnone err
    cases err <;> simp [saveCacheRun, hnone]
  · intro s hs
    have htmp := tmpOf_ne cp
    constructor
    · refine ⟨by simp [saveCacheRun, hs], ?_, ?_⟩
      · simp only [saveCacheRun, hs, storeMemoryCache_disk]
        exact lookupA_insertA_self _ _ _
      · simp only [saveCacheRun, hs, storeMemoryCache_disk]
        rw [lookupA_insertA_ne _ _ _ _ (Ne.symm htmp)]
        exact lookupA_eraseA_self _ _
    · intro err herr
      cases err with
      | ok => exact absurd rfl herr
      | writeFail =>
          refine ⟨by simp [saveCacheRun, hs], ?_, ?_, by simp [saveCacheRun, hs]⟩
          · simp only [saveCacheRun, hs]
            exact lookupA_eraseA_ne _ _ _ htmp
          · simp only [saveCacheRun, hs]
            exact lookupA_eraseA_self _ _
      | replaceFail =>
          refine ⟨by simp [saveCacheRun, hs], ?_, ?_, by simp [saveCacheRun, hs]⟩
          · simp only [saveCacheRun, hs]
            rw [lookupA_eraseA_ne _ _ _ htmp,
              lookupA_insertA_ne _ _ _ _ htmp]
          · simp only [saveCacheRun, hs]
            exact lookupA_eraseA_self _ _

/-- Witness for `c6_save_error_handling`: on a concrete source, a write
failure leaves the (empty) disk unchanged and reports failure. -/
theorem c6_save_error_handling_witness :
    hpSourceStamp 1 [(["d", "export.xml"], FSEntry.file 3 10)] ["d", "export.xml"]
        = some (.fileS ["d", "export.xml"] 3 10) ∧
    (saveCacheRun 1 [(["d", "export.xml"], FSEntry.file 3 10)] ⟨[], [], []⟩
        ⟨[], []⟩ ["d", "health_cache.pkl"] ["d", "export.xml"] .writeFail).2 = false :=
  ⟨by decide,
   (((c6_save_error_handling 1 [(["d", "export.xml"], FSEntry.file 3 10)]
        ⟨[], [], []⟩ ⟨[], []⟩ ["d", "health_cache.pkl"] ["d", "export.xml"]).2
      (.fileS ["d", "export.xml"] 3 10) (by decide)).2 .writeFail (by decide)).1⟩

/-- C10: `_load_cache` never serves an empty Record Store from either cache
tier: whenever it returns `True`, the records list it installed is nonempty —
equivalently, a version-and-stamp-matching payload with an empty records list
yields `False` (a miss), so re-ingestion is attempted by the caller. -/
theorem c10_no_empty_cache_serve (fuel : ℕ) (fs : FS) (st : CacheState)
    (pr pr' : ParserState) (st' : CacheState) (cp sp : FPath)
    (h : loadCache fuel fs st pr cp sp = (pr', st', true)) :
    pr'.records ≠ [] := by
  unfold loadCache at h
  rcases hd : lookupA st.disk cp with _ | content
  · rw [hd] at h; simp at h
  · rw [hd] at h
    rcases hstamp : hpSourceStamp fuel fs sp with _ | stamp
    · rw [hstamp] at h; simp at h
    · rw [hstamp] at h
      try dsimp only at h
      have hdisk : ∀ c, loadDisk st pr cp stamp c = (pr', st', true) →
          pr'.records ≠ [] := by
        intro c hc
        cases c with
        | bad => simp [loadDisk] at hc
        | ok payload =>
            simp only [loadDisk] at hc
            by_cases h1 : payload.cache_version = CACHE_VERSION
            · rw [if_pos h1] at hc
              by_cases h2 : payload.source_stamp = stamp
              · rw [if_pos h2] at hc
                injection hc with hpr hrest
                injection hrest with hst hok
                rw [← hpr]
                show payload.records ≠ []
                simp only [decide_eq_true_eq] at hok
                intro hnil
                rw [hnil] at hok
                simp at hok
              · rw [if_neg h2] at hc; simp at hc
            · rw [if_neg h1] at hc; simp at hc
      rcases hm : lookupA st.mem cp with _ | mp
      · rw [hm] at h
        exact hdisk content h
      · rw [hm] at h
        try dsimp only at h
        by_cases hcond : mp.cache_version = CACHE_VERSION ∧ mp.source_stamp = stamp
        · rw [if_pos hcond] at h
          injection h with hpr hrest
          injection hrest with hst hok
          rw [← hpr]
          show mp.records ≠ []
          simp only [decide_eq_true_eq] at hok
          intro hnil
          rw [hnil] at hok
          simp at hok
        · rw [if_neg hcond] at h
          exact hdisk content h

/-- Concrete scene for the C10 witness: one source file and a disk cache
holding a matching, nonempty payload. -/
def fsC10 : FS := [(["d", "export.xml"], .file 3 10)]

def payloadC10 : Payload :=
  ⟨1, .fileS ["d", "export.xml"] 3 10, [[("a", Value.str "b")]], []⟩

def stC10 : CacheState := ⟨[(["d", "health_cache.pkl"], .ok payloadC10)], [], []⟩

/-- Witness for `c10_no_empty_cache_serve`: a concrete hit that returns
`true`, whose installed records are (necessarily) nonempty. -/
theorem c10_no_empty_cache_serve_witness :
    loadCache 1 fsC10 stC10 ⟨[], []⟩ ["d", "health_cache.pkl"] ["d", "export.xml"]
      = ((⟨[[("a", Value.str "b")]], []⟩ : ParserState),
         (⟨[(["d", "health_cache.pkl"], DiskFile.ok payloadC10)],
           [(["d", "health_cache.pkl"], payloadC10)],
           [["d", "health_cache.pkl"]]⟩ : CacheState),
         true) ∧
    (⟨[[("a", Value.str "b")]], []⟩ : ParserState).records ≠ [] :=
  ⟨by decide,
   c10_no_empty_cache_serve 1 fsC10 stC10 ⟨[], []⟩
     ⟨[[("a", Value.str "b")]], []⟩
     ⟨[(["d", "health_cache.pkl"], DiskFile.ok payloadC10)],
      [(["d", "health_cache.pkl"], payloadC10)],
      [["d", "health_cache.pkl"]]⟩
     ["d", "health_cache.pkl"] ["d", "export.xml"] (by decide)⟩

/-! ## Ingestion: the XML parsing loop with progress, JSON and CSV fallbacks,
and directory orchestration -/

/-- Progress bookkeeping of the `parse_xml` loop: `record_count`,
`last_progress` (initially `-1`) and the percents passed to the callback so
far, in order. -/
structure ProgState : Type where
  count : ℕ
  last : ℤ
  emitted : List ℤ
deriving DecidableEq

def initProg : ProgState := ⟨0, -1, []⟩

/-- `progress = int((current_pos / total_size) * 90) + 5` followed by
`max(5, min(95, progress))` (health_parser.py, lines 231-232); modelled with
exact integer arithmetic (the double-precision evaluation is a monotone
rounding of the same ratio). -/
def progressPercent (total pos : ℕ) : ℤ := max 5 (min 95 ((pos * 90 / total : ℕ) + 5))

/-- The per-record progress update of the `parse_xml` loop (health_parser.py,
lines 228-235): increment `record_count`; every 5000 records, when a callback
was supplied and the total size is known (`total_size` truthy, i.e. nonzero),
compute the clamped percent and invoke the callback unless it equals the last
emitted percent. -/
def progressStep (hasCb : Bool) (total : ℕ) (s : ProgState) (pos : ℕ) : ProgState :=
  let c := s.count + 1
  if hasCb && decide (total ≠ 0) && decide (c % 5000 = 0) then
    let p := progressPercent total pos
    if p ≠ s.last then ⟨c, p, s.emitted ++ [p]⟩ else ⟨c, s.last, s.emitted⟩
  else ⟨c, s.last, s.emitted⟩

/-- One `Record` end-event of `ET.iterparse` in `parse_xml` (health_parser.py,
lines 215-235): capture the attribute set, index it by its `type` attribute,
and update the progress state with the file position `xml_file.tell()`. -/
def parseXmlLoop (hasCb : Bool) (total : ℕ) (acc : ParserState × ProgState)
    (ev : HRecord × ℕ) : ParserState × ProgState :=
  (addRecord acc.1 ev.1, progressStep hasCb total acc.2 ev.2)

/-- `os.path.getsize` with the surrounding `try`: a missing/non-file path
gives `None`; both `None` and size 0 are falsy in the emission guard, so the
model collapses them to `0`. -/
def sizeOfPath (fs : FS) (p : FPath) : ℕ :=
  match lookupA fs p with
  | some (.file _ sz) => sz
  | _ => 0

/-- The event stream of one XML file: the `Record` elements in document
order, each with the stream position after it, plus whether the iteration
finished without raising (`false` = `ET.iterparse` raised after the listed
prefix of records had been appended). -/
abbrev XmlContent := List (HRecord × ℕ) × Bool

/-- `parse_xml` (health_parser.py, lines 182-246): try the cache, else
stream the file, appending and indexing every `Record` element and driving
the progress callback; on success save the cache and return
`len(self.records) > 0`; an exception mid-stream returns `False` (the records
already appended stay).  `xc` is the parse oracle for file contents, `serr`
the I/O fate of the cache save.  Result: parser, cache state, success, and
the percents emitted by this call. -/
def parse_xml (fuel : ℕ) (fs : FS) (xc : FPath → XmlContent) (hasCb : Bool)
    (serr : SaveErr) (st : CacheState) (pr : ParserState) (xmlPath : FPath) :
    ParserState × CacheState × Bool × List ℤ :=
  let cachePath := cachePathForSource fs xmlPath
  let loaded := loadCache fuel fs st pr cachePath xmlPath
  if loaded.2.2 then
    (loaded.1, loaded.2.1, true, if hasCb then [95] else [])
  else
    let total := sizeOfPath fs xmlPath
    let content := xc xmlPath
    let run := content.1.foldl (parseXmlLoop hasCb total) (loaded.1, initProg)
    if content.2 then
      let saved := saveCacheRun fuel fs loaded.2.1 run.1 cachePath xmlPath serr
      (run.1, saved.1, decide (run.1.records.length > 0), run.2.emitted)
    else
      (run.1, loaded.2.1, false, run.2.emitted)

/-- `glob.glob(os.path.join(d, "**", "*" + ext), recursive=True)`: the paths
under `d` whose basename ends with `ext`. -/
def globExt (fs : FS) (d : FPath) (ext : String) : List FPath :=
  (fs.filter (fun e => isUnder d e.1 && (lastName e.1).endsWith ext)).map (·.1)

/-- `'type' in record`. -/
def hasTypeKey (r : HRecord) : Bool := (lookupR r "type").isSome

/-- The JSON/CSV ingestion step (health_parser.py, lines 316-324 and
369-378): append and index the record only when it has a `type` key. -/
def typedStep (pr : ParserState) (r : HRecord) : ParserState :=
  if hasTypeKey r then addRecord pr r else pr

/-- The file loop of `parse_json_files` (health_parser.py, lines 308-327):
for every JSON file, if `json.load` succeeds and yields a list, ingest its
dict entries carrying a `type` key; a failing file is skipped.  The oracle
`jc` returns the dict entries of the file's top-level list (`none` = the
file raised / was not a list). -/
def jsonIngestFiles (jc : FPath → Option (List HRecord)) (files : List FPath)
    (pr : ParserState) : ParserState :=
  files.foldl (fun acc f =>
    match jc f with
    | none => acc
    | some items => items.foldl typedStep acc) pr

/-- `parse_json_files` (health_parser.py, lines 296-333): ingest every JSON
file under the directory, then report `len(self.records) > 0` — note the
check is against the parser's WHOLE records list, not only this call's
additions. -/
def parse_json_files (fs : FS) (jc : FPath → Option (List HRecord))
    (pr : ParserState) (dirPath : FPath) : ParserState × Bool :=
  let pr2 := jsonIngestFiles jc (globExt fs dirPath ".json") pr
  (pr2, decide (pr2.records.length > 0))

/-- Contents of a CSV file as read by `pd.read_csv` (after the UTF-8 /
Latin-1 fallback): column names and row records; `none` = the read raised
and the file is skipped. -/
abbrev CsvContent := Option (List String × List HRecord)

/-- The file loop of `parse_csv_files` (health_parser.py, lines 347-381):
a file qualifies when any of `type`/`startDate`/`endDate`/`value` appears in
its columns; its rows carrying a `type` key are ingested. -/
def csvIngestFiles (cc : FPath → CsvContent) (files : List FPath)
    (pr : ParserState) : ParserState :=
  files.foldl (fun acc f =>
    match cc f with
    | none => acc
    | some (cols, rows) =>
        if ["type", "startDate", "endDate", "value"].any (fun c => cols.contains c) then
          rows.foldl typedStep acc
        else acc) pr

/-- `parse_csv_files` (health_parser.py, lines 335-387). -/
def parse_csv_files (fs : FS) (cc : FPath → CsvContent)
    (pr : ParserState) (dirPath : FPath) : ParserState × Bool :=
  let pr2 := csvIngestFiles cc (globExt fs dirPath ".csv") pr
  (pr2, decide (pr2.records.length > 0))

/-- The export-file scan of `parse_directory` (health_parser.py, lines
263-267): all `*.xml` files under the directory whose basename is exactly
`export.xml` or `輸出.xml`, in search order. -/
def exportFilesUnder (fs : FS) (d : FPath) : List FPath :=
  (fs.filter (fun e => isUnder d e.1 &&
    (decide (lastName e.1 = "export.xml") || decide (lastName e.1 = "輸出.xml")))).map (·.1)

/-- The `for xml_file in export_files` loop of `parse_directory`
(health_parser.py, lines 273-277): parse each in turn, stopping at the first
success. -/
def tryXmlFiles (fuel : ℕ) (fs : FS) (xc : FPath → XmlContent) (hasCb : Bool)
    (serr : SaveErr) : List FPath → ParserState → CacheState →
    ParserState × CacheState × Bool
  | [], pr, st => (pr, st, false)
  | f :: rest, pr, st =>
      let res := parse_xml fuel fs xc hasCb serr st pr f
      if res.2.2.1 then (res.1, res.2.1, true)
      else tryXmlFiles fuel fs xc hasCb serr rest res.1 res.2.1

/-- `parse_directory` (health_parser.py, lines 248-294): find the export
files, try the cache keyed by the first export file (or the directory),
then XML files in order, then the JSON fallback, then the CSV fallback;
save the cache (against the directory) only when a non-XML method
succeeded. -/
def parse_directory (fuel : ℕ) (fs : FS) (xc : FPath → XmlContent)
    (jc : FPath → Option (List HRecord)) (cc : FPath → CsvContent)
    (hasCb : Bool) (serr : SaveErr) (st : CacheState) (pr : ParserState)
    (dirPath : FPath) : ParserState × CacheState × Bool :=
  let exportFiles := exportFilesUnder fs dirPath
  let cacheSource := exportFiles.head?.getD dirPath
  let cachePath := cachePathForSource fs cacheSource
  let loaded := loadCache fuel fs st pr cachePath cacheSource
  if loaded.2.2 then (loaded.1, loaded.2.1, true)
  else
    let xmlRes := tryXmlFiles fuel fs xc hasCb serr exportFiles loaded.1 loaded.2.1
    if xmlRes.2.2 then (xmlRes.1, xmlRes.2.1, true)
    else
      let jsonRes := parse_json_files fs jc xmlRes.1 dirPath
      let afterJson :=
        if jsonRes.2 then (jsonRes.1, true)
        else parse_csv_files fs cc jsonRes.1 dirPath
      if afterJson.2 then
        let saved := saveCacheRun fuel fs xmlRes.2.1 afterJson.1 cachePath dirPath serr
        (afterJson.1, saved.1, true)
      else (afterJson.1, xmlRes.2.1, false)

/-! ## C2: fallback ordering in `parse_directory` -/

theorem addRecord_records (pr : ParserState) (r : HRecord) :
    (addRecord pr r).records = pr.records ++ [r] := by
  rcases h : lookupR r "type" with _ | t
  · simp [addRecord, h]
  · by_cases ht : truthyV t <;> simp [addRecord, h, ht]

theorem foldl_addRecord_records (recs : List HRecord) (pr : ParserState) :
    (recs.foldl addRecord pr).records = pr.records ++ recs := by
  induction recs generalizing pr with
  | nil => simp
  | cons r rest ih =>
      rw [List.foldl_cons, ih, addRecord_records, List.append_assoc,
        List.singleton_append]

/-- The parser component of the XML loop is the plain `addRecord` fold of
the record stream (progress bookkeeping does not touch the store). -/
theorem parseXmlLoop_fst (hasCb : Bool) (total : ℕ) (stream : List (HRecord × ℕ)) :
    ∀ (pr : ParserState) (ps : ProgState),
    (stream.foldl (parseXmlLoop hasCb total) (pr, ps)).1 =
      (stream.map (·.1)).foldl addRecord pr := by
  induction stream with
  | nil => intro pr ps; rfl
  | cons ev rest ih =>
      intro pr ps
      simp only [List.foldl_cons, List.map_cons]
      exact ih _ _

/-- C2: `parse_directory` tries the formats in the fixed order XML → JSON →
CSV and the first format yielding a record wins: starting from a fresh
parser with no usable cache, if the first canonical export file parses
successfully to a nonempty record stream, the directory parse succeeds and
its Record Store is built from exactly those XML records — for EVERY JSON
and CSV oracle, i.e. the JSON/CSV fallbacks contribute nothing. -/
theorem c2_fallback_order (fuel : ℕ) (fs : FS) (xc : FPath → XmlContent)
    (jc : FPath → Option (List HRecord)) (cc : FPath → CsvContent)
    (hasCb : Bool) (serr : SaveErr) (st : CacheState) (d f : FPath)
    (others : List FPath) (stream : List (HRecord × ℕ)) (recs : List HRecord)
    (hexp : exportFilesUnder fs d = f :: others)
    (hdisk : lookupA st.disk (cachePathForSource fs f) = none)
    (hxc : xc f = (stream, true))
    (hmap : stream.map (·.1) = recs)
    (hne : recs ≠ []) :
    (parse_directory fuel fs xc jc cc hasCb serr st emptyParser d).1 =
      recs.foldl addRecord emptyParser ∧
    (parse_directory fuel fs xc jc cc hasCb serr st emptyParser d).2.2 = true := by
  have hload : loadCache fuel fs st emptyParser (cachePathForSource fs f) f =
      (emptyParser, st, false) := by
    unfold loadCache
    rw [hdisk]
  have hpr1 : (stream.foldl (parseXmlLoop hasCb (sizeOfPath fs f))
      (emptyParser, initProg)).1 = recs.foldl addRecord emptyParser := by
    rw [parseXmlLoop_fst, hmap]
  have hsucc : decide ((recs.foldl addRecord emptyParser).records.length > 0)
      = true := by
    rw [foldl_addRecord_records]
    simp only [List.nil_append, gt_iff_lt, decide_eq_true_eq, List.length_pos]
    exact hne
  have hpx : parse_xml fuel fs xc hasCb serr st emptyParser f =
      (recs.foldl addRecord emptyParser,
       (saveCacheRun fuel fs st (recs.foldl addRecord emptyParser)
         (cachePathForSource fs f) f serr).1,
       true,
       (stream.foldl (parseXmlLoop hasCb (sizeOfPath fs f))
         (emptyParser, initProg)).2.emitted) := by
    simp only [parse_xml, hload, hxc, hpr1, hsucc]
    simp
  have htry : tryXmlFiles fuel fs xc hasCb serr (f :: others) emptyParser st =
      (recs.foldl addRecord emptyParser,
       (saveCacheRun fuel fs st (recs.foldl addRecord emptyParser)
         (cachePathForSource fs f) f serr).1,
       true) := by
    simp only [tryXmlFiles, hpx]
    simp
  have hdir : parse_directory fuel fs xc jc cc hasCb serr st emptyParser d =
      (recs.foldl addRecord emptyParser,
       (saveCacheRun fuel fs st (recs.foldl addRecord emptyParser)
         (cachePathForSource fs f) f serr).1,
       true) := by
    simp only [parse_directory, hexp, List.head?_cons, Option.getD_some,
      hload, htry]
    simp
  rw [hdir]
  exact ⟨rfl, rfl⟩

/-- Concrete scene for the C2 witness: a directory with one canonical XML
export yielding one step record, plus a JSON oracle that would yield a junk
record if it were ever consulted. -/
def fsC2 : FS := [(["d"], .dir 1), (["d", "export.xml"], .file 2 9)]

def streamC2 : List (HRecord × ℕ) :=
  [([("type", Value.str "StepCount"), ("value", Value.str "1")], 4)]

def xcC2 : FPath → XmlContent := fun _ => (streamC2, true)

def jcC2 : FPath → Option (List HRecord) := fun _ => some [[("type", Value.str "Junk")]]

def ccC2 : FPath → CsvContent := fun _ => none

/-- Witness for `c2_fallback_order` on the concrete scene. -/
theorem c2_fallback_order_witness :
    exportFilesUnder fsC2 ["d"] = [["d", "export.xml"]] ∧
    (parse_directory 1 fsC2 xcC2 jcC2 ccC2 false SaveErr.ok ⟨[], [], []⟩
        emptyParser ["d"]).1 =
      [[("type", Value.str "StepCount"), ("value", Value.str "1")]].foldl
        addRecord emptyParser ∧
    (parse_directory 1 fsC2 xcC2 jcC2 ccC2 false SaveErr.ok ⟨[], [], []⟩
        emptyParser ["d"]).2.2 = true :=
  ⟨by decide,
   (c2_fallback_order 1 fsC2 xcC2 jcC2 ccC2 false SaveErr.ok ⟨[], [], []⟩
      ["d"] ["d", "export.xml"] [] streamC2
      [[("type", Value.str "StepCount"), ("value", Value.str "1")]]
      (by decide) (by decide) rfl rfl (by decide)).1,
   (c2_fallback_order 1 fsC2 xcC2 jcC2 ccC2 false SaveErr.ok ⟨[], [], []⟩
      ["d"] ["d", "export.xml"] [] streamC2
      [[("type", Value.str "StepCount"), ("value", Value.str "1")]]
      (by decide) (by decide) rfl rfl (by decide)).2⟩

/-! ## C7: the Record Store invariant -/

/-- Truthiness of `record.get('type')`. -/
def truthyO : Option Value → Bool
  | some t => truthyV t
  | none => false

/-- The Record Store invariant of the spec: every indexed record appears in
the full sequence; every record of the full sequence with a truthy `type`
appears in the bucket keyed by that type; every indexed record carries the
truthy type of its bucket (hence untyped records are never indexed). -/
def StoreInv (pr : ParserState) : Prop :=
  (∀ b ∈ pr.record_types, ∀ r ∈ b.2, r ∈ pr.records) ∧
  (∀ r ∈ pr.records, truthyO (lookupR r "type") = true →
    ∃ b ∈ pr.record_types, lookupR r "type" = some b.1 ∧ r ∈ b.2) ∧
  (∀ b ∈ pr.record_types, ∀ r ∈ b.2,
    lookupR r "type" = some b.1 ∧ truthyV b.1 = true)

theorem mem_addToBucket_cases {bs : List (Value × List HRecord)} {t : Value}
    {r : HRecord} {b : Value × List HRecord} (h : b ∈ addToBucket bs t r) :
    b ∈ bs ∨ (b.1 = t ∧ (b.2 = [r] ∨ ∃ rs, (t, rs) ∈ bs ∧ b.2 = rs ++ [r])) := by
  induction bs with
  | nil =>
      simp only [addToBucket, List.mem_singleton] at h
      subst h
      exact Or.inr ⟨rfl, Or.inl rfl⟩
  | cons e rest ih =>
      obtain ⟨k, rs⟩ := e
      by_cases hk : k = t
      · rw [addToBucket, if_pos hk] at h
        rcases List.mem_cons.1 h with hb | hb
        · subst hb
          exact Or.inr ⟨hk, Or.inr ⟨rs, by rw [← hk]; exact List.mem_cons_self _ _, rfl⟩⟩
        · exact Or.inl (List.mem_cons_of_mem _ hb)
      · rw [addToBucket, if_neg hk] at h
        rcases List.mem_cons.1 h with hb | hb
        · exact Or.inl (hb ▸ List.mem_cons_self _ _)
        · rcases ih hb with hold | ⟨hbt, hrest⟩
          · exact Or.inl (List.mem_cons_of_mem _ hold)
          · refine Or.inr ⟨hbt, ?_⟩
            rcases hrest with h1 | ⟨rs', hmem, heq⟩
            · exact Or.inl h1
            · exact Or.inr ⟨rs', List.mem_cons_of_mem _ hmem, heq⟩

theorem addToBucket_preserve {bs : List (Value × List HRecord)} {t' : Value}
    {rs : List HRecord} (t : Value) (r : HRecord) (h : (t', rs) ∈ bs) :
    ∃ rs', ((t', rs') ∈ addToBucket bs t r) ∧ (rs' = rs ∨ rs' = rs ++ [r]) := by
  induction bs with
  | nil => exact absurd h (List.not_mem_nil _)
  | cons e rest ih =>
      obtain ⟨k, v⟩ := e
      by_cases hk : k = t
      · rw [addToBucket, if_pos hk]
        rcases List.mem_cons.1 h with hb | hb
        · obtain ⟨h1, h2⟩ := Prod.mk.injEq .. ▸ hb
          exact ⟨rs ++ [r], by rw [← h1, ← h2]; exact List.mem_cons_self _ _,
            Or.inr rfl⟩
        · exact ⟨rs, List.mem_cons_of_mem _ hb, Or.inl rfl⟩
      · rw [addToBucket, if_neg hk]
        rcases List.mem_cons.1 h with hb | hb
        · exact ⟨rs, hb ▸ List.mem_cons_self _ _, Or.inl rfl⟩
        · obtain ⟨rs', hmem, hor⟩ := ih hb
          exact ⟨rs', List.mem_cons_of_mem _ hmem, hor⟩

theorem addToBucket_self (bs : List (Value × List HRecord)) (t : Value)
    (r : HRecord) : ∃ rs, ((t, rs) ∈ addToBucket bs t r) ∧ r ∈ rs := by
  induction bs with
  | nil => exact ⟨[r], List.mem_singleton_self _, List.mem_singleton_self _⟩
  | cons e rest ih =>
      obtain ⟨k, v⟩ := e
      by_cases hk : k = t
      · rw [addToBucket, if_pos hk]
        exact ⟨v ++ [r], by rw [← hk]; exact List.mem_cons_self _ _,
          List.mem_append_right _ (List.mem_singleton_self _)⟩
      · rw [addToBucket, if_neg hk]
        obtain ⟨rs, hmem, hr⟩ := ih
        exact ⟨rs, List.mem_cons_of_mem _ hmem, hr⟩

theorem storeInv_addRecord {pr : ParserState} (h : StoreInv pr) (r : HRecord) :
    StoreInv (addRecord pr r) := by
  obtain ⟨hA, hB, hC⟩ := h
  rcases ht : lookupR r "type" with _ | t
  · -- untyped: only the full sequence grows
    have hval : addRecord pr r = ⟨pr.records ++ [r], pr.record_types⟩ := by
      simp [addRecord, ht]
    rw [hval]
    refine ⟨fun b hb r' hr' => List.mem_append_left _ (hA b hb r' hr'),
      fun r' hr' htr => ?_, hC⟩
    rcases List.mem_append.1 hr' with hold | hnew
    · exact hB r' hold htr
    · rw [List.mem_singleton.1 hnew, ht] at htr
      exact absurd htr (by simp [truthyO])
  · by_cases htr : truthyV t
    · -- typed: append and index
      have hval : addRecord pr r =
          ⟨pr.records ++ [r], addToBucket pr.record_types t r⟩ := by
        simp [addRecord, ht, htr]
      rw [hval]
      refine ⟨?_, ?_, ?_⟩
      · intro b hb r' hr'
        rcases mem_addToBucket_cases hb with hold | ⟨hbt, hrest⟩
        · exact List.mem_append_left _ (hA b hold r' hr')
        · rcases hrest with h1 | ⟨rs, hmem, heq⟩
          · rw [h1, List.mem_singleton] at hr'
            exact List.mem_append_right _ (hr' ▸ List.mem_singleton_self _)
          · rw [heq] at hr'
            rcases List.mem_append.1 hr' with h2 | h2
            · exact List.mem_append_left _ (hA _ hmem r' h2)
            · exact List.mem_append_right _ h2
      · intro r' hr' htyped
        rcases List.mem_append.1 hr' with hold | hnew
        · obtain ⟨b, hb, hlk, hin⟩ := hB r' hold htyped
          obtain ⟨rs', hmem', hor⟩ := addToBucket_preserve t r hb
          refine ⟨(b.1, rs'), hmem', hlk, ?_⟩
          rcases hor with h1 | h1
          · rw [h1]; exact hin
          · rw [h1]; exact List.mem_append_left _ hin
        · rw [List.mem_singleton.1 hnew]
          obtain ⟨rs, hmem, hin⟩ := addToBucket_self pr.record_types t r
          exact ⟨(t, rs), hmem, ht, hin⟩
      · intro b hb r' hr'
        rcases mem_addToBucket_cases hb with hold | ⟨hbt, hrest⟩
        · exact hC b hold r' hr'
        · rcases hrest with h1 | ⟨rs, hmem, heq⟩
          · rw [h1, List.mem_singleton] at hr'
            rw [hr', hbt, ht]
            exact ⟨rfl, hbt ▸ htr⟩
          · rw [heq] at hr'
            rcases List.mem_append.1 hr' with h2 | h2
            · have := hC (t, rs) hmem r' h2
              rw [hbt]
              exact this
            · rw [List.mem_singleton.1 h2, hbt, ht]
              exact ⟨rfl, hbt ▸ htr⟩
    · -- type present but falsy: only the full sequence grows
      have hval : addRecord pr r = ⟨pr.records ++ [r], pr.record_types⟩ := by
        simp [addRecord, ht, htr]
      rw [hval]
      refine ⟨fun b hb r' hr' => List.mem_append_left _ (hA b hb r' hr'),
        fun r' hr' htyped => ?_, hC⟩
      rcases List.mem_append.1 hr' with hold | hnew
      · exact hB r' hold htyped
      · rw [List.mem_singleton.1 hnew, ht] at htyped
        simp only [truthyO] at htyped
        exact absurd htyped (by simp [htr])

theorem storeInv_foldl_addRecord {pr : ParserState} (h : StoreInv pr)
    (recs : List HRecord) : StoreInv (recs.foldl addRecord pr) := by
  induction recs generalizing pr with
  | nil => exact h
  | cons r rest ih => exact ih (storeInv_addRecord h r)

theorem storeInv_typedStep {pr : ParserState} (h : StoreInv pr) (r : HRecord) :
    StoreInv (typedStep pr r) := by
  unfold typedStep
  by_cases hk : hasTypeKey r
  · rw [if_pos hk]; exact storeInv_addRecord h r
  · rw [if_neg hk]; exact h

theorem storeInv_foldl_typedStep {pr : ParserState} (h : StoreInv pr)
    (recs : List HRecord) : StoreInv (recs.foldl typedStep pr) := by
  induction recs generalizing pr with
  | nil => exact h
  | cons r rest ih => exact ih (storeInv_typedStep h r)

/-- C7: every ingestion loop — the XML `Record` loop, the JSON file loop and
the CSV file loop — preserves the Record Store invariant: indexed records
appear in the full sequence, truthy-typed records of the full sequence
appear in their type's bucket, and records without a truthy type are never
indexed. -/
theorem c7_store_invariant (pr : ParserState) (h : StoreInv pr) :
    (∀ (hasCb : Bool) (total : ℕ) (stream : List (HRecord × ℕ)) (ps : ProgState),
      StoreInv ((stream.foldl (parseXmlLoop hasCb total) (pr, ps)).1)) ∧
    (∀ (jc : FPath → Option (List HRecord)) (files : List FPath),
      StoreInv (jsonIngestFiles jc files pr)) ∧
    (∀ (cc : FPath → CsvContent) (files : List FPath),
      StoreInv (csvIngestFiles cc files pr)) := by
  refine ⟨fun hasCb total stream ps => ?_, fun jc files => ?_, fun cc files => ?_⟩
  · rw [parseXmlLoop_fst]
    exact storeInv_foldl_addRecord h _
  · induction files generalizing pr with
    | nil => exact h
    | cons f rest ih =>
        show StoreInv (jsonIngestFiles jc rest _)
        dsimp only
        rcases hjc : jc f with _ | items
        · exact ih _ h
        · exact ih _ (storeInv_foldl_typedStep h items)
  · induction files generalizing pr with
    | nil => exact h
    | cons f rest ih =>
        show StoreInv (csvIngestFiles cc rest _)
        dsimp only
        rcases hcc : cc f with _ | content
        · exact ih _ h
        · obtain ⟨cols, rows⟩ := content
          dsimp only
          by_cases hcols :
            (["type", "startDate", "endDate", "value"].any (fun c => cols.contains c)) = true
          · rw [if_pos hcols]
            exact ih _ (storeInv_foldl_typedStep h rows)
          · rw [if_neg hcols]
            exact ih _ h

instance storeInvDecidable (pr : ParserState) : Decidable (StoreInv pr) := by
  unfold StoreInv
  infer_instance

/-- Witness for `c7_store_invariant`: the invariant holds of the empty store
and is preserved by a concrete one-record XML ingestion. -/
theorem c7_store_invariant_witness :
    StoreInv emptyParser ∧
    StoreInv (([([("type", Value.str "HeartRate"), ("value", Value.str "77")], 9)].foldl
      (parseXmlLoop false 0) (emptyParser, initProg)).1) :=
  ⟨by decide,
   (c7_store_invariant emptyParser (by decide)).1 false 0
     [([("type", Value.str "HeartRate"), ("value", Value.str "77")], 9)] initProg⟩

/-! ## C9: progress callback monotonicity -/

theorem progressPercent_mono (total : ℕ) {p q : ℕ} (h : p ≤ q) :
    progressPercent total p ≤ progressPercent total q := by
  unfold progressPercent
  have h1 : (p * 90 / total : ℕ) ≤ q * 90 / total :=
    Nat.div_le_div_right (Nat.mul_le_mul_right _ h)
  have h2 : ((p * 90 / total : ℕ) : ℤ) + 5 ≤ ((q * 90 / total : ℕ) : ℤ) + 5 := by
    exact_mod_cast add_le_add_right (Int.ofNat_le.2 h1) 5
  exact max_le_max le_rfl (min_le_min le_rfl h2)

theorem progressPercent_lb (total pos : ℕ) : 5 ≤ progressPercent total pos :=
  le_max_left _ _

theorem progressPercent_ub (total pos : ℕ) : progressPercent total pos ≤ 95 :=
  max_le (by norm_num) (min_le_left _ _)

/-- The progress component of the XML loop is the `progressStep` fold of the
stream positions. -/
theorem parseXmlLoop_snd (hasCb : Bool) (total : ℕ) (stream : List (HRecord × ℕ)) :
    ∀ (pr : ParserState) (ps : ProgState),
    (stream.foldl (parseXmlLoop hasCb total) (pr, ps)).2 =
      (stream.map (·.2)).foldl (progressStep hasCb total) ps := by
  induction stream with
  | nil => intro pr ps; rfl
  | cons ev rest ih =>
      intro pr ps
      simp only [List.foldl_cons, List.map_cons]
      exact ih _ _

/-- Invariant of the progress fold: over non-decreasing positions, starting
from a strictly increasing, bounded emission list whose last element (when
any) is `last` and is below every future percent, the fold keeps the
emission list strictly increasing and inside `[5, 95]`. -/
theorem progress_fold_good (hasCb : Bool) (total : ℕ) :
    ∀ (positions : List ℕ) (s : ProgState),
    positions.Pairwise (· ≤ ·) →
    List.Chain' (· < ·) s.emitted →
    (∀ p ∈ s.emitted, 5 ≤ p ∧ p ≤ 95) →
    ((s.emitted = [] ∧ s.last = -1) ∨
      (s.emitted.getLast? = some s.last ∧
       ∀ pos ∈ positions, s.last ≤ progressPercent total pos)) →
    List.Chain' (· < ·) (positions.foldl (progressStep hasCb total) s).emitted ∧
    ∀ p ∈ (positions.foldl (progressStep hasCb total) s).emitted,
      5 ≤ p ∧ p ≤ 95 := by
  intro positions
  induction positions with
  | nil => intro s _ hc hb _; exact ⟨hc, hb⟩
  | cons pos rest ih =>
      intro s hpw hc hb hlast
      rw [List.pairwise_cons] at hpw
      obtain ⟨hall, hpw'⟩ := hpw
      rw [List.foldl_cons]
      by_cases hcond :
        (hasCb && decide (total ≠ 0) && decide ((s.count + 1) % 5000 = 0)) = true
      · by_cases hne : progressPercent total pos ≠ s.last
        · -- an emission happens
          have hs' : progressStep hasCb total s pos =
              ⟨s.count + 1, progressPercent total pos,
               s.emitted ++ [progressPercent total pos]⟩ := by
            unfold progressStep
            rw [if_pos hcond, if_pos hne]
          rw [hs']
          refine ih _ hpw' ?_ ?_ ?_
          · rw [List.chain'_append]
            refine ⟨hc, List.chain'_singleton _, fun x hx y hy => ?_⟩
            rw [List.head?_cons, Option.mem_def, Option.some.injEq] at hy
            subst hy
            rcases hlast with ⟨hemp, _⟩ | ⟨hgl, hfut⟩
            · rw [hemp] at hx
              exact absurd hx (by simp)
            · rw [Option.mem_def, hgl, Option.some.injEq] at hx
              subst hx
              exact lt_of_le_of_ne (hfut pos (List.mem_cons_self _ _)) (Ne.symm hne)
          · intro p hp
            rcases List.mem_append.1 hp with hold | hnew
            · exact hb p hold
            · rw [List.mem_singleton.1 hnew]
              exact ⟨progressPercent_lb _ _, progressPercent_ub _ _⟩
          · refine Or.inr ⟨List.getLast?_concat _, fun pos' hpos' => ?_⟩
            exact progressPercent_mono total (hall pos' hpos')
        · -- suppressed duplicate percent
          have hs' : progressStep hasCb total s pos =
              ⟨s.count + 1, s.last, s.emitted⟩ := by
            unfold progressStep
            rw [if_pos hcond, if_neg hne]
          rw [hs']
          refine ih _ hpw' hc hb ?_
          rcases hlast with ⟨hemp, hl⟩ | ⟨hgl, hfut⟩
          · exact Or.inl ⟨hemp, hl⟩
          · exact Or.inr ⟨hgl, fun pos' hpos' =>
              hfut pos' (List.mem_cons_of_mem _ hpos')⟩
      · -- no emission checkpoint
        have hs' : progressStep hasCb total s pos =
            ⟨s.count + 1, s.last, s.emitted⟩ := by
          unfold progressStep
          rw [if_neg hcond]
        rw [hs']
        refine ih _ hpw' hc hb ?_
        rcases hlast with ⟨hemp, hl⟩ | ⟨hgl, hfut⟩
        · exact Or.inl ⟨hemp, hl⟩
        · exact Or.inr ⟨hgl, fun pos' hpos' =>
            hfut pos' (List.mem_cons_of_mem _ hpos')⟩

/-- C9: during one XML ingestion, when the stream positions reported by
`xml_file.tell()` are non-decreasing (they are: the file is read forward),
the percents handed to the progress callback from the parsing loop form a
strictly increasing sequence — hence monotonically non-decreasing with no
two consecutive invocations carrying the same percent — and every emitted
percent lies in the clamped range `[5, 95]`. -/
theorem c9_progress_monotone (hasCb : Bool) (total : ℕ)
    (stream : List (HRecord × ℕ)) (pr : ParserState)
    (hmono : (stream.map (·.2)).Pairwise (· ≤ ·)) :
    List.Chain' (· < ·)
      ((stream.foldl (parseXmlLoop hasCb total) (pr, initProg)).2.emitted) ∧
    ∀ p ∈ (stream.foldl (parseXmlLoop hasCb total) (pr, initProg)).2.emitted,
      5 ≤ p ∧ p ≤ 95 := by
  rw [parseXmlLoop_snd]
  exact progress_fold_good hasCb total _ initProg hmono List.chain'_nil
    (by simp [initProg]) (Or.inl ⟨rfl, rfl⟩)

/-- Witness for `c9_progress_monotone` on a concrete three-event stream with
forward positions. -/
theorem c9_progress_monotone_witness :
    (([([("c", Value.str "x")], 2), ([("c", Value.str "x")], 5),
       ([("c", Value.str "x")], 9)].map (fun ev => ev.2)).Pairwise (· ≤ ·)) ∧
    ∀ p ∈ (([([("c", Value.str "x")], 2), ([("c", Value.str "x")], 5),
       ([("c", Value.str "x")], 9)].foldl (parseXmlLoop true 10)
        (emptyParser, initProg)).2.emitted), 5 ≤ p ∧ p ≤ 95 :=
  ⟨by decide,
   (c9_progress_monotone true 10
     [([("c", Value.str "x")], 2), ([("c", Value.str "x")], 5),
      ([("c", Value.str "x")], 9)] emptyParser (by decide)).2⟩

/-! ## Derived-metric layer: timestamps, field extraction, series -/

/-- A parsed timestamp (`pd.Timestamp`): calendar day plus seconds within
the day.  `.dt.date` is the `day` projection; comparison is lexicographic. -/
structure Ts : Type where
  day : ℤ
  sec : ℚ
deriving DecidableEq

/-- Timestamp comparison used by `sort_values('startDate')`. -/
def tsLeB (a b : Ts) : Bool :=
  decide (a.day < b.day) || (decide (a.day = b.day) && decide (a.sec ≤ b.sec))

/-- `(end - start).total_seconds() / 3600`. -/
def tsDiffHours (e s : Ts) : ℚ :=
  (((e.day - s.day : ℤ) : ℚ) * 86400 + (e.sec - s.sec)) / 3600

/-- A Python float: `none` is NaN, `some q` a finite value (exports carry
values far below overflow, so finite floats are idealized as rationals). -/
abbrev Flt := Option ℚ

/-- `date_fields` of `_extract_date` (health_parser.py, line 485). -/
def date_fields : List String := ["startDate", "endDate", "date", "日期", "Start", "End"]

/-- `value_fields` of `_extract_value` (health_parser.py, line 513). -/
def value_fields : List String := ["value", "Value", "值", "数值"]

/-- `field in record and record[field]` (present with a truthy value). -/
def getTruthy (r : HRecord) (k : String) : Option Value :=
  match lookupR r k with
  | some v => if truthyV v then some v else none
  | none => none

/-- First field of the priority list present with a truthy value. -/
def firstTruthy : List String → HRecord → Option Value
  | [], _ => none
  | f :: rest, r =>
      match getTruthy r f with
      | some v => some v
      | none => firstTruthy rest r

/-- `_safe_date_conversion` (health_parser.py, lines 439-470): the
`pd.to_datetime` format chain is the oracle `pdParse`; every failure path —
including the `TypeError` a non-string raises at `'Z' in date_str` — is
caught and returns `pd.Timestamp.now()`, i.e. `now`. -/
def safe_date_conversion (pdParse : String → Option Ts) (now : Ts) : Value → Ts
  | .str s => (pdParse s).getD now
  | _ => now

/-- `_extract_date` (health_parser.py, lines 472-498): the first truthy
field of the priority list is converted (`_safe_date_conversion` never
raises, so the loop always breaks there); with no candidate the current
time is substituted. -/
def extract_date (pdParse : String → Option Ts) (now : Ts) (r : HRecord) : Ts :=
  match firstTruthy date_fields r with
  | some v => safe_date_conversion pdParse now v
  | none => now

/-- Python `float(v)`: `none` = raises (`ValueError`/`TypeError`); `pf` is
the oracle for strings (`float("nan")` is `some none`). -/
def pyFloat (pf : String → Option Flt) : Value → Option Flt
  | .str s => pf s
  | .num q => some (some q)
  | .nan => some (none)
  | .null => none

/-- `_extract_value` (health_parser.py, lines 500-523): first truthy value
field, coerced to float, falling back to the raw value when coercion
raises; `none` when no field is present. -/
def extract_value (pf : String → Option Flt) (r : HRecord) : Option (Flt ⊕ Value) :=
  match firstTruthy value_fields r with
  | none => none
  | some v =>
      match pyFloat pf v with
      | some x => some (Sum.inl x)
      | none => some (Sum.inr v)

/-- The alias-collection loop shared by the series getters
(`for type_name in …: if type_name in self.record_types: extend`). -/
def collectTyped (pr : ParserState) (types : List String) : List HRecord :=
  types.foldl (fun acc t => acc ++ (lookupA pr.record_types (Value.str t)).getD []) []

/-- Stable insertion of `x` after every element `y` with `lt y x`
(strictly smaller), keeping equal keys in input order. -/
def insertLe {α : Type} (lt : α → α → Bool) (x : α) : List α → List α
  | [] => [x]
  | y :: ys => if lt y x then y :: insertLe lt x ys else x :: y :: ys

/-- A deterministic comparison sort (`df.sort_values`; pandas' default
quicksort leaves tie order unspecified — this model fixes the stable
order). -/
def sortLe {α : Type} (lt : α → α → Bool) (l : List α) : List α :=
  l.foldr (insertLe lt) []

/-- A row of `get_step_count_data` / `get_heart_rate_data`. -/
structure SeriesRow : Type where
  startDate : Ts
  value : Flt
deriving DecidableEq

/-- `a < b` on timestamps for the stable sort. -/
def tsLtB (a b : Ts) : Bool := tsLeB a b && !tsLeB b a

/-- Shared body of `get_step_count_data` (health_parser.py, lines 525-581)
and `get_heart_rate_data` (lines 613-669): collect the alias buckets,
extract date and value from each record, keep records whose value coerces to
a float (the second `float(value)` on a raw fallback fails again and the
record is skipped), and sort chronologically by start date. -/
def seriesRows (pf : String → Option Flt) (pdParse : String → Option Ts)
    (now : Ts) (pr : ParserState) (types : List String) : List SeriesRow :=
  let data := (collectTyped pr types).filterMap (fun r =>
    match extract_value pf r with
    | some (Sum.inl x) => some ⟨extract_date pdParse now r, x⟩
    | _ => none)
  sortLe (fun a b => tsLtB a.startDate b.startDate) data

def step_types : List String :=
  ["HKQuantityTypeIdentifierStepCount", "com.apple.health.type.quantity.steps",
   "StepCount"]

def hr_types : List String :=
  ["HKQuantityTypeIdentifierHeartRate", "com.apple.health.type.quantity.heartrate",
   "HeartRate"]

def sleep_types : List String :=
  ["HKCategoryTypeIdentifierSleepAnalysis", "com.apple.health.type.category.sleep",
   "SleepAnalysis"]

/-- `get_step_count_data`. -/
def get_step_count_data (pf : String → Option Flt) (pdParse : String → Option Ts)
    (now : Ts) (pr : ParserState) : List SeriesRow :=
  seriesRows pf pdParse now pr step_types

/-- `get_heart_rate_data`. -/
def get_heart_rate_data (pf : String → Option Flt) (pdParse : String → Option Ts)
    (now : Ts) (pr : ParserState) : List SeriesRow :=
  seriesRows pf pdParse now pr hr_types

/-- Adjacent deduplication of a sorted key list (`groupby` key set). -/
def dedupAdj : List ℤ → List ℤ
  | [] => []
  | [x] => [x]
  | x :: y :: rest =>
      if x = y then dedupAdj (y :: rest) else x :: dedupAdj (y :: rest)

/-- `groupby` keys: ascending, distinct calendar days. -/
def groupDays (days : List ℤ) : List ℤ :=
  dedupAdj (sortLe (fun a b => decide (a < b)) days)

/-- pandas `sum()` over a float column: NaN entries are skipped, an all-NaN
(or empty) column sums to 0. -/
def fsum (xs : List Flt) : ℚ := (xs.filterMap id).sum

/-- `groupby('日期')['value'].sum()`: per-day totals, ascending by day. -/
def dailyFromSeries (rows : List SeriesRow) : List (ℤ × ℚ) :=
  (groupDays (rows.map (fun r => r.startDate.day))).map (fun d =>
    (d, fsum ((rows.filter (fun r => decide (r.startDate.day = d))).map
      (fun r => r.value))))

/-- `get_daily_step_count` (health_parser.py, lines 583-611): per-day sums
of the step series (dates serialized as ISO strings downstream; the string
sort over ISO dates coincides with the day order used here). -/
def get_daily_step_count (pf : String → Option Flt) (pdParse : String → Option Ts)
    (now : Ts) (pr : ParserState) : List (ℤ × ℚ) :=
  let rows := get_step_count_data pf pdParse now pr
  if rows = [] then [] else dailyFromSeries rows

/-- pandas `mean()` with skipna (NaN when no numeric entry). -/
def fmean (xs : List Flt) : Flt :=
  let v := xs.filterMap id
  if v.length = 0 then none else some (v.sum / v.length)

/-- pandas `max()` with skipna. -/
def fmax (xs : List Flt) : Flt :=
  match xs.filterMap id with
  | [] => none
  | y :: ys => some (ys.foldl max y)

/-- pandas `min()` with skipna. -/
def fmin (xs : List Flt) : Flt :=
  match xs.filterMap id with
  | [] => none
  | y :: ys => some (ys.foldl min y)

/-- The `{'平均心率', '最高心率', '最低心率'}` dict of `get_heart_rate_stats`. -/
structure HRStats : Type where
  avg : Flt
  maxhr : Flt
  minhr : Flt
deriving DecidableEq

/-- `get_heart_rate_stats` (health_parser.py, lines 671-699): `None` when
the series is empty, else mean/max/min over the numeric values. -/
def get_heart_rate_stats (pf : String → Option Flt) (pdParse : String → Option Ts)
    (now : Ts) (pr : ParserState) : Option HRStats :=
  let rows := get_heart_rate_data pf pdParse now pr
  if rows = [] then none
  else some ⟨fmean (rows.map (fun r => r.value)),
             fmax (rows.map (fun r => r.value)),
             fmin (rows.map (fun r => r.value))⟩

/-! ## Sleep and stress -/

/-- A row of `get_sleep_analysis_data`. -/
structure SleepRow : Type where
  startDate : Ts
  endDate : Option Ts
  duration : Option ℚ
  value : Option Value
deriving DecidableEq

/-- The end-date extraction of `get_sleep_analysis_data` (health_parser.py,
lines 731-743): try a truthy `endDate`, else a truthy `End`
(`_safe_date_conversion` never raises, so `end_date` is set whenever the
first truthy candidate exists). -/
def extractEnd (pdParse : String → Option Ts) (now : Ts) (r : HRecord) :
    Option Ts :=
  match getTruthy r "endDate" with
  | some v => some (safe_date_conversion pdParse now v)
  | none =>
      match getTruthy r "End" with
      | some v => some (safe_date_conversion pdParse now v)
      | none => none

/-- `get_sleep_analysis_data` (health_parser.py, lines 701-783): for each
sleep record take the start date, the optional end date, the duration in
hours when an end exists, and the truthy `value`/`Value` state; keep rows
with a duration or a state; sort by start date. -/
def get_sleep_analysis_data (pdParse : String → Option Ts) (now : Ts)
    (pr : ParserState) : List SleepRow :=
  let data := (collectTyped pr sleep_types).filterMap (fun r =>
    let start := extract_date pdParse now r
    let endd := extractEnd pdParse now r
    let dur : Option ℚ := endd.map (fun e => tsDiffHours e start)
    let v : Option Value :=
      match getTruthy r "value" with
      | some v => some v
      | none => getTruthy r "Value"
    if dur.isSome || v.isSome then some ⟨start, endd, dur, v⟩ else none)
  sortLe (fun a b => tsLtB a.startDate b.startDate) data

/-- `sleep_states` (health_parser.py, line 801). -/
def sleep_states : List String := ["asleep", "inBed", "入睡", "睡眠"]

/-- ASCII lowercase of one character (`str.lower()` on the vocabulary and
state values at hand, which are ASCII or CJK — CJK has no case). -/
def lowerChar (c : Char) : Char :=
  if 65 ≤ c.toNat ∧ c.toNat ≤ 90 then Char.ofNat (c.toNat + 32) else c

/-- `str.lower()`. -/
def lowerStr (s : String) : String := ⟨s.data.map lowerChar⟩

/-- The filter mask
`sleep_data['value'].str.lower().isin([s.lower() for s in sleep_states])`:
a non-string state (or a missing one) lowers to NaN and never matches. -/
def sleepStateMatch (v : Option Value) : Bool :=
  match v with
  | some (.str s) => (sleep_states.map lowerStr).contains (lowerStr s)
  | _ => false

/-- `groupby('日期')['duration'].sum()` over sleep rows (skipna). -/
def dailySleepTotals (rows : List SleepRow) : List (ℤ × ℚ) :=
  (groupDays (rows.map (fun r => r.startDate.day))).map (fun d =>
    (d, fsum ((rows.filter (fun r => decide (r.startDate.day = d))).map
      (fun r => r.duration))))

/-- The post-filter branch of `get_sleep_duration_daily` (health_parser.py,
lines 817-828): when some duration is present sum the duration column per
day; otherwise (all durations missing, hence all end dates missing) the
`endDate` column — always present — recomputes the durations and the
per-day sums are taken over those. -/
def dailyFromRows (rows : List SleepRow) : List (ℤ × ℚ) :=
  if rows.any (fun r => r.duration.isSome) then dailySleepTotals rows
  else dailySleepTotals (rows.map (fun r =>
    ⟨r.startDate, r.endDate, r.endDate.map (fun e => tsDiffHours e r.startDate),
     r.value⟩))

/-- `get_sleep_duration_daily` (health_parser.py, lines 785-840): empty
input gives an empty table; otherwise filter to the asleep/in-bed
vocabulary, discard the filter if it matches nothing, and compute per-day
duration totals. -/
def get_sleep_duration_daily (pdParse : String → Option Ts) (now : Ts)
    (pr : ParserState) : List (ℤ × ℚ) :=
  let rows := get_sleep_analysis_data pdParse now pr
  if rows = [] then []
  else
    let filtered := rows.filter (fun r => sleepStateMatch r.value)
    let used := if filtered = [] then rows else filtered
    dailyFromRows used

/-- A row of `get_stress_indicators` (`日期`, `心率波动`, `心率范围`,
`平均心率`, `压力指数`). -/
structure StressRow : Type where
  day : ℤ
  wave : ℝ
  range : ℝ
  mean : ℝ
  index : ℝ

/-- ddof-1 sample variance (`pandas.std` squared) over the day's values;
0 for fewer than two samples (where pandas yields NaN). -/
def sampleVar (vals : List ℚ) : ℚ :=
  if vals.length ≤ 1 then 0
  else ((vals.map (fun x => (x - vals.sum / vals.length) ^ 2)).sum) /
    ((vals.length : ℚ) - 1)

/-- `std(ddof=1)` followed by `fillna(0)`: 0 for a single sample, else the
square root of the sample variance.  (`Real.sqrt` has no computable
representative; every other definition in this development is executable.) -/
noncomputable def stdFill0 (vals : List ℚ) : ℝ :=
  if vals.length ≤ 1 then 0 else Real.sqrt ((sampleVar vals : ℚ) : ℝ)

/-- `x.max()` of a day's nonempty value list. -/
def listMax (vals : List ℚ) : ℚ :=
  match vals with
  | [] => 0
  | x :: xs => xs.foldl max x

/-- `x.min()` of a day's nonempty value list. -/
def listMin (vals : List ℚ) : ℚ :=
  match vals with
  | [] => 0
  | x :: xs => xs.foldl min x

/-- `hr_data.dropna(subset=['value'])` keyed by calendar day: the numeric
heart-rate samples feeding `get_stress_indicators`. -/
def stressValid (pf : String → Option Flt) (pdParse : String → Option Ts)
    (now : Ts) (pr : ParserState) : List (ℤ × ℚ) :=
  (get_heart_rate_data pf pdParse now pr).filterMap (fun r =>
    r.value.map (fun q => (r.startDate.day, q)))

/-- A day's numeric heart-rate values. -/
def dayVals (valid : List (ℤ × ℚ)) (d : ℤ) : List ℚ :=
  (valid.filter (fun e => decide (e.1 = d))).map (fun e => e.2)

/-- `get_stress_indicators` (health_parser.py, lines 842-911): empty results
when there is no (numeric) heart-rate data; otherwise group the numeric
samples by day, aggregate std / range / mean (NaN std filled with 0),
compute `(std * 0.6 + range * 0.4) / 10` and clip it into `[1, 10]`
(`np.clip`), ascending by day. -/
noncomputable def get_stress_indicators (pf : String → Option Flt)
    (pdParse : String → Option Ts) (now : Ts) (pr : ParserState) :
    List StressRow :=
  let hr := get_heart_rate_data pf pdParse now pr
  if hr = [] then []
  else
    let valid := stressValid pf pdParse now pr
    if valid = [] then []
    else
      (groupDays (valid.map (fun e => e.1))).map (fun d =>
        let vals := dayVals valid d
        let wave := stdFill0 vals
        let rng : ℚ := listMax vals - listMin vals
        let avg : ℚ := vals.sum / vals.length
        ⟨d, wave, (rng : ℝ), (avg : ℝ),
         min 10 (max 1 ((wave * 0.6 + (rng : ℝ) * 0.4) / 10))⟩)

/-! ## C4: the stress index formula and clipping -/

theorem map_day_of_mk (days : List ℤ) (f : ℤ → StressRow)
    (h : ∀ d, (f d).day = d) :
    (days.map f).map (fun row => row.day) = days := by
  induction days with
  | nil => rfl
  | cons d rest ih => simp [h, ih]

/-- C4: whenever the store holds at least one numeric heart-rate sample,
`get_stress_indicators` produces one row per calendar day of the numeric
samples (ascending, distinct), whose stress index is exactly
`(std * 0.6 + range * 0.4) / 10` — with an undefined (single-sample)
standard deviation replaced by 0 before the formula — clipped by `np.clip`
into the closed interval `[1, 10]`. -/
theorem c4_stress_formula (pf : String → Option Flt) (pdParse : String → Option Ts)
    (now : Ts) (pr : ParserState)
    (hne : stressValid pf pdParse now pr ≠ []) :
    ((get_stress_indicators pf pdParse now pr).map (fun row => row.day) =
      groupDays ((stressValid pf pdParse now pr).map (fun e => e.1))) ∧
    ∀ row ∈ get_stress_indicators pf pdParse now pr,
      row.index = min 10 (max 1
        ((stdFill0 (dayVals (stressValid pf pdParse now pr) row.day) * 0.6 +
          ((listMax (dayVals (stressValid pf pdParse now pr) row.day) -
            listMin (dayVals (stressValid pf pdParse now pr) row.day) : ℚ) : ℝ) *
            0.4) / 10)) ∧
      1 ≤ row.index ∧ row.index ≤ 10 := by
  have hhr : get_heart_rate_data pf pdParse now pr ≠ [] := by
    intro h
    apply hne
    unfold stressValid
    rw [h]
    rfl
  have hval : get_stress_indicators pf pdParse now pr =
      (groupDays ((stressValid pf pdParse now pr).map (fun e => e.1))).map
        (fun d =>
          ⟨d, stdFill0 (dayVals (stressValid pf pdParse now pr) d),
           ((listMax (dayVals (stressValid pf pdParse now pr) d) -
             listMin (dayVals (stressValid pf pdParse now pr) d) : ℚ) : ℝ),
           (((dayVals (stressValid pf pdParse now pr) d).sum /
             (dayVals (stressValid pf pdParse now pr) d).length : ℚ) : ℝ),
           min 10 (max 1
             ((stdFill0 (dayVals (stressValid pf pdParse now pr) d) * 0.6 +
               ((listMax (dayVals (stressValid pf pdParse now pr) d) -
                 listMin (dayVals (stressValid pf pdParse now pr) d) : ℚ) : ℝ) *
                 0.4) / 10))⟩) := by
    simp only [get_stress_indicators]
    rw [if_neg hhr, if_neg hne]
  constructor
  · rw [hval]
    exact map_day_of_mk _ _ (fun d => rfl)
  · intro row hrow
    rw [hval, List.mem_map] at hrow
    obtain ⟨d, hd, hrow⟩ := hrow
    subst hrow
    exact ⟨rfl, le_min (by norm_num) (le_max_left _ _), min_le_left _ _⟩

/-- Concrete scene for the C4 witness: three same-day heart-rate samples
60, 80, 100 (sample std 20, range 40, index 2.8). -/
def pfC4 : String → Option Flt := fun s =>
  if s = "60" then some (some 60)
  else if s = "80" then some (some 80)
  else if s = "100" then some (some 100)
  else none

def pdC4 : String → Option Ts := fun s => if s = "d1" then some ⟨0, 0⟩ else none

def prC4 : ParserState :=
  ⟨[[("type", Value.str "HeartRate"), ("startDate", Value.str "d1"),
     ("value", Value.str "60")],
    [("type", Value.str "HeartRate"), ("startDate", Value.str "d1"),
     ("value", Value.str "80")],
    [("type", Value.str "HeartRate"), ("startDate", Value.str "d1"),
     ("value", Value.str "100")]],
   [(Value.str "HeartRate",
     [[("type", Value.str "HeartRate"), ("startDate", Value.str "d1"),
       ("value", Value.str "60")],
      [("type", Value.str "HeartRate"), ("startDate", Value.str "d1"),
       ("value", Value.str "80")],
      [("type", Value.str "HeartRate"), ("startDate", Value.str "d1"),
       ("value", Value.str "100")]])]⟩

/-- Witness for `c4_stress_formula` on the concrete scene. -/
theorem c4_stress_formula_witness :
    stressValid pfC4 pdC4 ⟨5, 0⟩ prC4 ≠ [] ∧
    ∀ row ∈ get_stress_indicators pfC4 pdC4 ⟨5, 0⟩ prC4,
      row.index = min 10 (max 1
        ((stdFill0 (dayVals (stressValid pfC4 pdC4 ⟨5, 0⟩ prC4) row.day) * 0.6 +
          ((listMax (dayVals (stressValid pfC4 pdC4 ⟨5, 0⟩ prC4) row.day) -
            listMin (dayVals (stressValid pfC4 pdC4 ⟨5, 0⟩ prC4) row.day) : ℚ) : ℝ) *
            0.4) / 10)) ∧
      1 ≤ row.index ∧ row.index ≤ 10 :=
  ⟨by decide, (c4_stress_formula pfC4 pdC4 ⟨5, 0⟩ prC4 (by decide)).2⟩

/-! ## C8: the sleep filter fallback -/

theorem insertLe_ne_nil {α : Type} (lt : α → α → Bool) (x : α) (l : List α) :
    insertLe lt x l ≠ [] := by
  cases l with
  | nil => simp [insertLe]
  | cons y ys =>
      unfold insertLe
      by_cases h : lt y x = true
      · rw [if_pos h]; simp
      · rw [if_neg h]; simp

theorem sortLe_ne_nil {α : Type} (lt : α → α → Bool) {l : List α}
    (h : l ≠ []) : sortLe lt l ≠ [] := by
  cases l with
  | nil => exact absurd rfl h
  | cons x xs => exact insertLe_ne_nil lt x _

theorem dedupAdj_ne_nil : ∀ {l : List ℤ}, l ≠ [] → dedupAdj l ≠ [] := by
  intro l
  induction l with
  | nil => intro h; exact absurd rfl h
  | cons x rest ih =>
      intro _
      cases rest with
      | nil => simp [dedupAdj]
      | cons y ys =>
          unfold dedupAdj
          by_cases h : x = y
          · rw [if_pos h]; exact ih (by simp)
          · rw [if_neg h]; simp

theorem groupDays_ne_nil {days : List ℤ} (h : days ≠ []) :
    groupDays days ≠ [] :=
  dedupAdj_ne_nil (sortLe_ne_nil _ h)

theorem dailySleepTotals_ne_nil {rows : List SleepRow} (h : rows ≠ []) :
    dailySleepTotals rows ≠ [] := by
  have hdays : rows.map (fun r => r.startDate.day) ≠ [] := by
    intro hm
    exact h (List.map_eq_nil_iff.1 hm)
  unfold dailySleepTotals
  intro hmap
  rw [List.map_eq_nil_iff] at hmap
  exact groupDays_ne_nil hdays hmap

theorem dailyFromRows_ne_nil {rows : List SleepRow} (h : rows ≠ []) :
    dailyFromRows rows ≠ [] := by
  unfold dailyFromRows
  by_cases hd : rows.any (fun r => r.duration.isSome) = true
  · rw [if_pos hd]; exact dailySleepTotals_ne_nil h
  · rw [if_neg hd]
    apply dailySleepTotals_ne_nil
    intro hm
    exact h (List.map_eq_nil_iff.1 hm)

/-- C8: when the sleep data frame is nonempty but the case-insensitive
asleep/in-bed filter matches no row, `get_sleep_duration_daily` discards the
filter and computes the daily totals from the full unfiltered row set — so
the result equals `dailyFromRows` of all rows and, in particular, is not
empty. -/
theorem c8_sleep_filter_fallback (pdParse : String → Option Ts) (now : Ts)
    (pr : ParserState)
    (hrows : get_sleep_analysis_data pdParse now pr ≠ [])
    (hfilt : (get_sleep_analysis_data pdParse now pr).filter
      (fun r => sleepStateMatch r.value) = []) :
    get_sleep_duration_daily pdParse now pr =
      dailyFromRows (get_sleep_analysis_data pdParse now pr) ∧
    get_sleep_duration_daily pdParse now pr ≠ [] := by
  have hval : get_sleep_duration_daily pdParse now pr =
      dailyFromRows (get_sleep_analysis_data pdParse now pr) := by
    simp only [get_sleep_duration_daily]
    rw [if_neg hrows, hfilt]
    simp
  exact ⟨hval, hval ▸ dailyFromRows_ne_nil hrows⟩

/-- Concrete scene for the C8 witness: one sleep record whose state `REM`
matches no vocabulary entry. -/
def pdC8 : String → Option Ts := fun s =>
  if s = "s" then some ⟨0, 0⟩ else none

def prC8 : ParserState :=
  ⟨[[("type", Value.str "SleepAnalysis"), ("startDate", Value.str "s"),
     ("value", Value.str "REM")]],
   [(Value.str "SleepAnalysis",
     [[("type", Value.str "SleepAnalysis"), ("startDate", Value.str "s"),
       ("value", Value.str "REM")]])]⟩

/-- Witness for `c8_sleep_filter_fallback` on the concrete scene. -/
theorem c8_sleep_filter_fallback_witness :
    (get_sleep_analysis_data pdC8 ⟨9, 0⟩ prC8 ≠ [] ∧
     (get_sleep_analysis_data pdC8 ⟨9, 0⟩ prC8).filter
       (fun r => sleepStateMatch r.value) = []) ∧
    get_sleep_duration_daily pdC8 ⟨9, 0⟩ prC8 ≠ [] :=
  ⟨⟨by decide, by decide⟩,
   (c8_sleep_filter_fallback pdC8 ⟨9, 0⟩ prC8 (by decide) (by decide)).2⟩

/-! ## C5: determinism of the aggregate tables -/

/-- `_extract_date` does not hit the `pd.Timestamp.now()` fallback on this
record: its first truthy date field is a string the date parser accepts. -/
def dateOkMain (pdParse : String → Option Ts) (r : HRecord) : Bool :=
  match firstTruthy date_fields r with
  | some (.str s) => (pdParse s).isSome
  | some _ => false
  | none => false

/-- The sleep end-date extraction does not hit the current-time fallback:
whichever of `endDate` / `End` is tried (if any) parses. -/
def dateOkEnd (pdParse : String → Option Ts) (r : HRecord) : Bool :=
  match getTruthy r "endDate" with
  | some (.str s) => (pdParse s).isSome
  | some _ => false
  | none =>
      match getTruthy r "End" with
      | some (.str s) => (pdParse s).isSome
      | some _ => false
      | none => true

def dateOk (pdParse : String → Option Ts) (r : HRecord) : Bool :=
  dateOkMain pdParse r && dateOkEnd pdParse r

/-- All type aliases consumed by the aggregate functions. -/
def allMetricTypes : List String := step_types ++ hr_types ++ sleep_types

theorem extract_date_indep {pdParse : String → Option Ts} {r : HRecord}
    (h : dateOkMain pdParse r = true) (now1 now2 : Ts) :
    extract_date pdParse now1 r = extract_date pdParse now2 r := by
  unfold dateOkMain at h
  unfold extract_date
  rcases hf : firstTruthy date_fields r with _ | v
  · rw [hf] at h
    simp at h
  · rw [hf] at h
    try dsimp only at h
    cases v with
    | str s =>
        try dsimp only at h
        rcases hp : pdParse s with _ | t
        · rw [hp] at h
          simp at h
        · simp [safe_date_conversion, hp]
    | num q => simp at h
    | nan => simp at h
    | null => simp at h

theorem extractEnd_indep {pdParse : String → Option Ts} {r : HRecord}
    (h : dateOkEnd pdParse r = true) (now1 now2 : Ts) :
    extractEnd pdParse now1 r = extractEnd pdParse now2 r := by
  unfold dateOkEnd at h
  unfold extractEnd
  rcases he : getTruthy r "endDate" with _ | v
  · rw [he] at h
    try dsimp only at h
    rcases he2 : getTruthy r "End" with _ | v2
    · rfl
    · rw [he2] at h
      try dsimp only at h
      cases v2 with
      | str s =>
          try dsimp only at h
          rcases hp : pdParse s with _ | t
          · rw [hp] at h
            simp at h
          · simp [safe_date_conversion, hp]
      | num q => simp at h
      | nan => simp at h
      | null => simp at h
  · rw [he] at h
    try dsimp only at h
    cases v with
    | str s =>
        try dsimp only at h
        rcases hp : pdParse s with _ | t
        · rw [hp] at h
          simp at h
        · simp [safe_date_conversion, hp]
    | num q => simp at h
    | nan => simp at h
    | null => simp at h

theorem filterMap_congr_mem {α β : Type} {f g : α → Option β} :
    ∀ {l : List α}, (∀ x ∈ l, f x = g x) → l.filterMap f = l.filterMap g := by
  intro l
  induction l with
  | nil => intro _; rfl
  | cons x xs ih =>
      intro h
      rw [List.filterMap_cons, List.filterMap_cons,
        h x (List.mem_cons_self _ _),
        ih (fun y hy => h y (List.mem_cons_of_mem _ hy))]

theorem mem_foldl_append {α β : Type} (g : β → List α) :
    ∀ (ts : List β) (init : List α) (r : α),
    (r ∈ ts.foldl (fun acc t => acc ++ g t) init) ↔
      r ∈ init ∨ ∃ t ∈ ts, r ∈ g t := by
  intro ts
  induction ts with
  | nil =>
      intro init r
      simp
  | cons t rest ih =>
      intro init r
      rw [List.foldl_cons, ih]
      simp only [List.mem_append, List.mem_cons]
      constructor
      · rintro (⟨h1 | h1⟩ | ⟨t', ht', hr⟩)
        · exact Or.inl h1
        · exact Or.inr ⟨t, Or.inl rfl, h1⟩
        · exact Or.inr ⟨t', Or.inr ht', hr⟩
      · rintro (h1 | ⟨t', ht' | ht', hr⟩)
        · exact Or.inl (Or.inl h1)
        · exact Or.inl (Or.inr (ht' ▸ hr))
        · exact Or.inr ⟨t', ht', hr⟩

theorem mem_collectTyped {pr : ParserState} {ts : List String} {r : HRecord} :
    r ∈ collectTyped pr ts ↔
      ∃ t ∈ ts, r ∈ (lookupA pr.record_types (Value.str t)).getD [] := by
  unfold collectTyped
  rw [mem_foldl_append]
  simp

theorem seriesRows_indep (pf : String → Option Flt)
    (pdParse : String → Option Ts) (pr : ParserState) (types : List String)
    (now1 now2 : Ts)
    (h : ∀ r ∈ collectTyped pr types, dateOkMain pdParse r = true) :
    seriesRows pf pdParse now1 pr types = seriesRows pf pdParse now2 pr types := by
  unfold seriesRows
  dsimp only
  congr 1
  apply filterMap_congr_mem
  intro r hr
  rcases hev : extract_value pf r with _ | x
  · rfl
  · cases x with
    | inl fl => rw [extract_date_indep (h r hr) now1 now2]
    | inr v => rfl

theorem sleepRows_indep (pdParse : String → Option Ts) (pr : ParserState)
    (now1 now2 : Ts)
    (h : ∀ r ∈ collectTyped pr sleep_types, dateOk pdParse r = true) :
    get_sleep_analysis_data pdParse now1 pr =
      get_sleep_analysis_data pdParse now2 pr := by
  unfold get_sleep_analysis_data
  try dsimp only
  congr 1
  apply filterMap_congr_mem
  intro r hr
  have hok := h r hr
  rw [dateOk, Bool.and_eq_true] at hok
  rw [extract_date_indep hok.1 now1 now2, extractEnd_indep hok.2 now1 now2]

/-- Concrete scene refuting C5: a step record with no date field at all, so
`_extract_date` substitutes the current timestamp. -/
def pfC5 : String → Option Flt := fun s =>
  if s = "100" then some (some 100) else none

def pdC5 : String → Option Ts := fun _ => none

def prC5 : ParserState :=
  ⟨[[("type", Value.str "StepCount"), ("value", Value.str "100")]],
   [(Value.str "StepCount",
     [[("type", Value.str "StepCount"), ("value", Value.str "100")]])]⟩

/-- C5 (counterexample): the daily-steps aggregate is NOT a deterministic
function of the Record Store's contents: the same store, evaluated at two
different wall-clock instants (`pd.Timestamp.now()` fallback of
`_extract_date`), produces two different tables. -/
theorem c5_determinism_counterexample :
    get_daily_step_count pfC5 pdC5 ⟨0, 0⟩ prC5 ≠
    get_daily_step_count pfC5 pdC5 ⟨1, 0⟩ prC5 := by decide

/-- C5 (amended): every aggregate table (daily steps, the heart-rate series
and statistics, daily sleep duration, the stress table) is a deterministic
function of the Record Store's contents PROVIDED no consumed record triggers
the current-time fallback, i.e. every record in the consumed type buckets
has a parseable primary date field and — when a truthy `endDate`/`End` is
present — a parseable end field; two runs at different wall-clock times then
produce equal tables (`c5_determinism_counterexample` shows the proviso is
necessary). -/
theorem c5_determinism_amended (pf : String → Option Flt)
    (pdParse : String → Option Ts) (pr : ParserState) (now1 now2 : Ts)
    (h : ∀ r ∈ collectTyped pr allMetricTypes, dateOk pdParse r = true) :
    get_daily_step_count pf pdParse now1 pr =
      get_daily_step_count pf pdParse now2 pr ∧
    get_heart_rate_data pf pdParse now1 pr =
      get_heart_rate_data pf pdParse now2 pr ∧
    get_heart_rate_stats pf pdParse now1 pr =
      get_heart_rate_stats pf pdParse now2 pr ∧
    get_sleep_duration_daily pdParse now1 pr =
      get_sleep_duration_daily pdParse now2 pr ∧
    get_stress_indicators pf pdParse now1 pr =
      get_stress_indicators pf pdParse now2 pr := by
  have hsub : ∀ (ts : List String), (∀ t ∈ ts, t ∈ allMetricTypes) →
      ∀ r ∈ collectTyped pr ts, dateOk pdParse r = true := by
    intro ts hts r hr
    rw [mem_collectTyped] at hr
    obtain ⟨t, ht, hrt⟩ := hr
    exact h r (mem_collectTyped.2 ⟨t, hts t ht, hrt⟩)
  have hstep : ∀ r ∈ collectTyped pr step_types, dateOkMain pdParse r = true := by
    intro r hr
    have hok := hsub step_types
      (fun t ht => by simp [allMetricTypes, List.mem_append, ht]) r hr
    rw [dateOk, Bool.and_eq_true] at hok
    exact hok.1
  have hhr : ∀ r ∈ collectTyped pr hr_types, dateOkMain pdParse r = true := by
    intro r hr
    have hok := hsub hr_types
      (fun t ht => by simp [allMetricTypes, List.mem_append, ht]) r hr
    rw [dateOk, Bool.and_eq_true] at hok
    exact hok.1
  have hsleep : ∀ r ∈ collectTyped pr sleep_types, dateOk pdParse r = true :=
    hsub sleep_types (fun t ht => by simp [allMetricTypes, List.mem_append, ht])
  have hsr : get_step_count_data pf pdParse now1 pr =
      get_step_count_data pf pdParse now2 pr :=
    seriesRows_indep pf pdParse pr step_types now1 now2 hstep
  have hhrr : get_heart_rate_data pf pdParse now1 pr =
      get_heart_rate_data pf pdParse now2 pr :=
    seriesRows_indep pf pdParse pr hr_types now1 now2 hhr
  have hslr : get_sleep_analysis_data pdParse now1 pr =
      get_sleep_analysis_data pdParse now2 pr :=
    sleepRows_indep pdParse pr now1 now2 hsleep
  refine ⟨?_, hhrr, ?_, ?_, ?_⟩
  · unfold get_daily_step_count
    rw [hsr]
  · unfold get_heart_rate_stats
    rw [hhrr]
  · unfold get_sleep_duration_daily
    rw [hslr]
  · unfold get_stress_indicators stressValid
    rw [hhrr]

/-- Concrete scene for the C5 witness: one heart-rate record with a
parseable date. -/
def pfC5w : String → Option Flt := fun s =>
  if s = "70" then some (some 70) else none

def pdC5w : String → Option Ts := fun s => if s = "d" then some ⟨0, 0⟩ else none

def prC5w : ParserState :=
  ⟨[[("type", Value.str "HeartRate"), ("startDate", Value.str "d"),
     ("value", Value.str "70")]],
   [(Value.str "HeartRate",
     [[("type", Value.str "HeartRate"), ("startDate", Value.str "d"),
       ("value", Value.str "70")]])]⟩

/-- Witness for `c5_determinism_amended` on the concrete scene, at two
different clock readings. -/
theorem c5_determinism_amended_witness :
    (∀ r ∈ collectTyped prC5w allMetricTypes, dateOk pdC5w r = true) ∧
    (get_daily_step_count pfC5w pdC5w ⟨0, 0⟩ prC5w =
       get_daily_step_count pfC5w pdC5w ⟨3, 0⟩ prC5w ∧
     get_heart_rate_data pfC5w pdC5w ⟨0, 0⟩ prC5w =
       get_heart_rate_data pfC5w pdC5w ⟨3, 0⟩ prC5w ∧
     get_heart_rate_stats pfC5w pdC5w ⟨0, 0⟩ prC5w =
       get_heart_rate_stats pfC5w pdC5w ⟨3, 0⟩ prC5w ∧
     get_sleep_duration_daily pdC5w ⟨0, 0⟩ prC5w =
       get_sleep_duration_daily pdC5w ⟨3, 0⟩ prC5w ∧
     get_stress_indicators pfC5w pdC5w ⟨0, 0⟩ prC5w =
       get_stress_indicators pfC5w pdC5w ⟨3, 0⟩ prC5w) :=
  ⟨by decide, c5_determinism_amended pfC5w pdC5w prC5w ⟨0, 0⟩ ⟨3, 0⟩ (by decide)⟩
